import Mathlib

/-!
Verification of the thaliumx order-book engine (docker/trading/liquibook
binding).  The repository's own sources contain the N-API wrapper
(`order_book_wrapper.cc`, `order_book_wrapper.h`, `addon.cc`); the matching
engine that the wrapper drives is specified in `spec.md`.  Definitions below
are a shallow embedding: the engine core is modelled from the spec (its code
is not among the given sources), while the wrapper-level behaviour
(`getDepth` filtering, `cancelOrder` / `replaceOrder` stubs, `addOrder`
argument defaulting) is translated directly from `order_book_wrapper.cc`.
All quantities and prices are 64-bit unsigned in the source; they are
modelled as `Nat` (no arithmetic in the engine can overflow 64 bits for the
inputs considered, and the source never relies on wraparound).
-/

namespace Thalium

/-- Modelled from the spec: one order's economic terms plus mutable fill
state (spec.md section 3, "Order").  `price = 0` encodes a market order and
`stopPrice = 0` encodes "not a stop order", as in the spec's examples.
`restedQty` is bookkeeping recording the open quantity the order had when it
was inserted into a price level; it is used only to state the FIFO-priority
property and does not influence any computation. -/
structure Order where
  id : Nat
  isBuy : Bool
  price : Nat
  stopPrice : Nat
  initialQty : Nat
  openQty : Nat
  allOrNone : Bool
  immediateOrCancel : Bool
  restedQty : Nat
deriving DecidableEq

/-- Modelled from the spec: a price level, "a price, a side, and an ordered
sequence of resting Order references in strict time priority" (spec.md
section 3).  The head of `orders` is the earliest arrival. -/
structure Level where
  price : Nat
  orders : List Order
deriving DecidableEq

/-- Modelled from the spec: one entry of the Depth Aggregator, a price and
the aggregate open quantity resting at that price (spec.md section 3,
"Depth Level / Depth View"). -/
structure DepthEntry where
  price : Nat
  aggQty : Nat
deriving DecidableEq

/-- A fill event: the resting order hit, the execution price (always the
resting order's level price, spec.md section 4.1 step c) and the traded
quantity. -/
structure Trade where
  restingId : Nat
  price : Nat
  qty : Nat
deriving DecidableEq

/-- Modelled from the spec: the whole engine state — both book sides (lists
of price levels, bids best-price-first descending, asks ascending), the
incrementally maintained Depth Aggregator for each side, the Stop Order Set
in submission (FIFO) order, the Market Price scalar (`none` until first set)
and the submission sequence counter. -/
structure Engine where
  bids : List Level
  asks : List Level
  bidDepth : List DepthEntry
  askDepth : List DepthEntry
  stops : List Order
  marketPrice : Option Nat
  nextId : Nat
deriving DecidableEq

/-- The engine with no orders and no market price. -/
def emptyEngine : Engine := ⟨[], [], [], [], [], none, 0⟩

/-- Sum of the open quantities of a list of orders. -/
def sumOpen (os : List Order) : Nat := (os.map Order.openQty).sum

/-- The depth entry a price level should aggregate to. -/
def levelEntry (L : Level) : DepthEntry := ⟨L.price, sumOpen L.orders⟩

/-- Sum of the quantities of a list of trades. -/
def tradeSum (ts : List Trade) : Nat := (ts.map Trade.qty).sum

/-- Modelled from the spec: whether an incoming order can trade against a
level at price `lp` (spec.md section 4.1 step 1: "buy: order.price ≥
level.price, or order is a market order; sell: order.price ≤ level.price or
market order"). -/
def priceOK (isBuy : Bool) (oPrice lp : Nat) : Bool :=
  if isBuy then oPrice == 0 || lp ≤ oPrice
  else oPrice == 0 || oPrice ≤ lp

/-- Result of matching an incoming order against one price level's queue. -/
structure QRes where
  opn : Nat
  orders : List Order
  trades : List Trade
deriving DecidableEq

/-- Modelled from the spec: match an incoming order with remaining open
quantity `opn` against a single level's FIFO queue (spec.md section 4.1
steps a–d).  Orders are taken in time priority; an order is skipped when
either side carries all-or-none and the counter-quantity cannot fully
satisfy it (step b); otherwise a trade of `min` of the two open quantities
executes at the level price `lp`, and a fully filled resting order is
removed. -/
def matchQueue (incAON : Bool) (lp : Nat) : Nat → List Order → QRes
  | opn, [] => ⟨opn, [], []⟩
  | opn, r :: rs =>
    if opn = 0 then ⟨opn, r :: rs, []⟩
    else if (incAON && decide (r.openQty < opn)) ||
            (r.allOrNone && decide (opn < r.openQty)) then
      let q := matchQueue incAON lp opn rs
      ⟨q.opn, r :: q.orders, q.trades⟩
    else
      let t := min opn r.openQty
      let q := matchQueue incAON lp (opn - t) rs
      ⟨q.opn,
       if r.openQty - t = 0 then q.orders
       else { r with openQty := r.openQty - t } :: q.orders,
       ⟨r.id, lp, t⟩ :: q.trades⟩

/-- Result of matching an incoming order against a whole book side. -/
structure LRes where
  opn : Nat
  levels : List Level
  depth : List DepthEntry
  trades : List Trade
deriving DecidableEq

/-- Modelled from the spec: match an incoming order against the opposite
book side, walking levels best-price-first while a trade is possible
(spec.md section 4.1 step 1), and incrementally maintain that side's Depth
Aggregator (section 4.4): the entry of a partially consumed level is
decremented by the traded quantity, and the entry of an emptied level is
removed together with the level.  The depth list mirrors the level list
entry-for-entry in every reachable state; the `(_ :: _, [])` case is
therefore unreachable and returns its inputs unchanged. -/
def matchLevelsD (isBuy incAON : Bool) (oP : Nat) :
    Nat → List Level → List DepthEntry → LRes
  | opn, [], d => ⟨opn, [], d, []⟩
  | opn, L :: rest, [] => ⟨opn, L :: rest, [], []⟩
  | opn, L :: rest, e :: dRest =>
    if opn = 0 then ⟨opn, L :: rest, e :: dRest, []⟩
    else if priceOK isBuy oP L.price then
      let q := matchQueue incAON L.price opn L.orders
      let rst := matchLevelsD isBuy incAON oP q.opn rest dRest
      if q.orders.isEmpty then
        ⟨rst.opn, rst.levels, rst.depth, q.trades ++ rst.trades⟩
      else
        ⟨rst.opn, { L with orders := q.orders } :: rst.levels,
         ⟨e.price, e.aggQty - (opn - q.opn)⟩ :: rst.depth,
         q.trades ++ rst.trades⟩
    else ⟨opn, L :: rest, e :: dRest, []⟩

/-- Modelled from the spec: insert a resting order into a book side
(spec.md section 4.1 step 2): append to the tail of the existing level at
its price, or create a new level at the sorted position.  `ahead p q` holds
when a level priced `p` sorts strictly ahead of one priced `q` on this side
(bids: higher first, asks: lower first). -/
def insertOrder (ahead : Nat → Nat → Bool) (o : Order) : List Level → List Level
  | [] => [⟨o.price, [o]⟩]
  | L :: rest =>
    if L.price = o.price then { L with orders := L.orders ++ [o] } :: rest
    else if ahead o.price L.price then ⟨o.price, [o]⟩ :: L :: rest
    else L :: insertOrder ahead o rest

/-- Modelled from the spec: the Depth Aggregator update mirroring
`insertOrder` (spec.md section 4.4): add the rested quantity to the entry at
the order's price, or create the entry at the sorted position. -/
def depthInsert (ahead : Nat → Nat → Bool) (p q : Nat) :
    List DepthEntry → List DepthEntry
  | [] => [⟨p, q⟩]
  | e :: rest =>
    if e.price = p then { e with aggQty := e.aggQty + q } :: rest
    else if ahead p e.price then ⟨p, q⟩ :: e :: rest
    else e :: depthInsert ahead p q rest

/-- Ordering of bid levels: higher price first. -/
def bidAhead (p q : Nat) : Bool := decide (q < p)

/-- Ordering of ask levels: lower price first. -/
def askAhead (p q : Nat) : Bool := decide (p < q)

/-- An order as rested: its open and rested quantities are the unmatched
remainder. -/
def restOrder (o : Order) (opn : Nat) : Order :=
  { o with openQty := opn, restedQty := opn }

/-- Modelled from the spec: the core `add` operation without stop-order
activation (spec.md section 4.1).  A zero-quantity order is rejected with no
state change; an order with nonzero stop price is routed to the Stop Order
Set and the call reports no match; otherwise the order matches against the
opposite side, and any remainder rests (unless the order is
immediate-or-cancel, or is a market order, which never rests).  The returned
flag is true iff the order's open quantity decreased, i.e. it traded. -/
def addCore (o : Order) (st : Engine) : Bool × Engine × List Trade :=
  if o.openQty = 0 then (false, st, [])
  else if o.stopPrice ≠ 0 then (false, { st with stops := st.stops ++ [o] }, [])
  else if o.isBuy then
    let m := matchLevelsD true o.allOrNone o.price o.openQty st.asks st.askDepth
    let st1 := { st with asks := m.levels, askDepth := m.depth }
    let st2 :=
      if m.opn = 0 ∨ o.immediateOrCancel = true ∨ o.price = 0 then st1
      else { st1 with
              bids := insertOrder bidAhead (restOrder o m.opn) st1.bids,
              bidDepth := depthInsert bidAhead o.price m.opn st1.bidDepth }
    (decide (m.opn < o.openQty), st2, m.trades)
  else
    let m := matchLevelsD false o.allOrNone o.price o.openQty st.bids st.bidDepth
    let st1 := { st with bids := m.levels, bidDepth := m.depth }
    let st2 :=
      if m.opn = 0 ∨ o.immediateOrCancel = true ∨ o.price = 0 then st1
      else { st1 with
              asks := insertOrder askAhead (restOrder o m.opn) st1.asks,
              askDepth := depthInsert askAhead o.price m.opn st1.askDepth }
    (decide (m.opn < o.openQty), st2, m.trades)

/-- Modelled from the spec: a stop order's trigger condition (spec.md
section 4.3: "buy stops trigger when market price ≥ stop price; sell stops
trigger when market price ≤ stop price"). -/
def triggered (p : Nat) (o : Order) : Bool :=
  if o.isBuy then decide (o.stopPrice ≤ p) else decide (p ≤ o.stopPrice)

/-- A triggered stop order is re-submitted with its stop price cleared
(spec.md section 4.3). -/
def clearStop (o : Order) : Order := { o with stopPrice := 0 }

/-- Modelled from the spec: the stop-activation work queue (spec.md section
4.3).  Each queue element is re-submitted to the matching core via
`addCore` with its stop price cleared; if its matching produced trades, the
Market Price moves to the last trade price and the stop set is rescanned,
appending newly triggered stops to the queue.  The second component of the
result is the submission log: the activated orders handed to the matching
core, in processing order.  `fuel` bounds the iteration;
`queueLength + stopsLength` steps always suffice because each step consumes
one queue element and only moves stops from the set to the queue. -/
def runQueue : Nat → List Order → Engine → Engine × List Order
  | 0, _, st => (st, [])
  | _ + 1, [], st => (st, [])
  | fuel + 1, o :: rest, st =>
    let r := addCore (clearStop o) st
    match r.2.2.getLast? with
    | none =>
      let rl := runQueue fuel rest r.2.1
      (rl.1, clearStop o :: rl.2)
    | some t =>
      let st2 := { r.2.1 with marketPrice := some t.price }
      let part := st2.stops.partition (fun s => triggered t.price s)
      let rl := runQueue fuel (rest ++ part.1) { st2 with stops := part.2 }
      (rl.1, clearStop o :: rl.2)

/-- Modelled from the spec: a Market Price update (spec.md sections 4.3 and
4.1 step e): record the new price, remove every stop order whose trigger is
now satisfied (in submission order) and process them as a work queue.
Returns the resulting state together with the work queue's submission log
(the activated orders re-submitted to the matching core during the
update). -/
def priceUpdate (p : Nat) (st : Engine) : Engine × List Order :=
  let part := st.stops.partition (fun s => triggered p s)
  runQueue (part.1.length + part.2.length) part.1
    { st with marketPrice := some p, stops := part.2 }

/-- Modelled from the spec: the full `add` entry point (spec.md section
4.1).  A zero-quantity order is rejected before any state change; otherwise
the order receives the next submission sequence number, runs `addCore`, and
if any trade occurred the Market Price moves to the last trade's price,
activating stops.  Returns the matched flag, the final state, and the
trades executed for this order during the call. -/
def addOrder (o : Order) (st : Engine) : Bool × Engine × List Trade :=
  if o.openQty = 0 then (false, st, [])
  else
    let o' := { o with id := st.nextId }
    let r := addCore o' { st with nextId := st.nextId + 1 }
    match r.2.2.getLast? with
    | none => (r.1, r.2.1, r.2.2)
    | some t => (r.1, (priceUpdate t.price r.2.1).1, r.2.2)

/-- Modelled from the spec: `set_market_price` (spec.md section 4.1): set
the Market Price directly, no trade implied, then evaluate the Stop Order
Set. -/
def setMarketPrice (p : Nat) (st : Engine) : Engine := (priceUpdate p st).1

/-- The arguments of one `addOrder` call as marshalled by the wrapper
(`order_book_wrapper.cc`, `AddOrder`): side, limit price, quantity, stop
price, all-or-none, and the optional sixth immediate-or-cancel argument. -/
structure OrderInput where
  isBuy : Bool
  price : Nat
  qty : Nat
  stopPrice : Nat
  allOrNone : Bool
  immediateOrCancel : Bool
deriving DecidableEq

/-- The `NodeOrder` built from one call's arguments
(`order_book_wrapper.cc`, `NodeOrder` constructor): initially unfilled, id
assigned by the engine on submission. -/
def inputOrder (i : OrderInput) : Order :=
  ⟨0, i.isBuy, i.price, i.stopPrice, i.qty, i.qty, i.allOrNone,
   i.immediateOrCancel, i.qty⟩

/-- `addOrder` as exposed by the wrapper (`order_book_wrapper.cc` lines
44–61): the sixth argument is optional and defaults to `false` when the
call has only five arguments (`info.Length() > 5 ? ... : false`). -/
def addOrderJs (isBuy : Bool) (price quantity stopPrice : Nat)
    (allOrNone : Bool) (immediateOrCancel : Option Bool) (st : Engine) :
    Bool × Engine × List Trade :=
  addOrder (inputOrder
    ⟨isBuy, price, quantity, stopPrice, allOrNone,
     immediateOrCancel.getD false⟩) st

/-- The final engine state of a sequence of `addOrder` calls starting from
the empty book. -/
def runAdds (is : List OrderInput) : Engine :=
  is.foldl (fun st i => (addOrder (inputOrder i) st).2.1) emptyEngine

/-- `getOrderBook` (`order_book_wrapper.cc` lines 98–135): one `{price,
quantity}` object per entry of each side's collection, bids first.
Modelled from the spec for the engine-internal collections: the spec's Book
Side is a price-ordered list of price levels (spec.md section 3), and a
level's open quantity is its aggregate open quantity. -/
def getOrderBook (st : Engine) : List (Nat × Nat) × List (Nat × Nat) :=
  (st.bids.map (fun L => (L.price, sumOpen L.orders)),
   st.asks.map (fun L => (L.price, sumOpen L.orders)))

/-- The sentinel the wrapper treats as an invalid depth price
(`order_book_wrapper.cc`: `0xFFFFFFFFFFFFFFFFULL`). -/
def SENTINEL_PRICE : Nat := 0xFFFFFFFFFFFFFFFF

/-- The fixed-size array of 5 depth slots per side exposed by the engine's
depth object (`SIZE = 5` in `order_book_wrapper.cc`; spec.md section 3,
"Depth Level / Depth View").  Slots beyond the live level count hold the
empty sentinel `{price 0, quantity 0}`. -/
def depthSlots (d : List DepthEntry) : List DepthEntry :=
  d.take 5 ++ List.replicate (5 - (d.take 5).length) ⟨0, 0⟩

/-- `getDepth` (`order_book_wrapper.cc` lines 137–186): walk the 5 depth
slots of each side and emit `{price, quantity}` only for slots whose price
is neither 0 nor the sentinel (`level.price() > 0 && level.price() !=
0xFFFFFFFFFFFFFFFFULL`); slots failing the check are skipped, not
emitted. -/
def getDepth (st : Engine) : List (Nat × Nat) × List (Nat × Nat) :=
  (((depthSlots st.bidDepth).filter
      (fun e => decide (0 < e.price) && !(e.price == SENTINEL_PRICE))).map
    (fun e => (e.price, e.aggQty)),
   ((depthSlots st.askDepth).filter
      (fun e => decide (0 < e.price) && !(e.price == SENTINEL_PRICE))).map
    (fun e => (e.price, e.aggQty)))

/-- The two failure modes of the wrapper's stubbed calls
(`order_book_wrapper.cc` lines 71–96): a thrown `TypeError` for too few
arguments, and the thrown `Error` for the unimplemented body. -/
inductive JsOutcome where
  | ok : Bool → JsOutcome
  | wrongArgCount : JsOutcome
  | notImplemented : JsOutcome
deriving DecidableEq

/-- `cancelOrder` (`order_book_wrapper.cc` lines 71–83): with fewer than
one argument it throws a wrong-argument-count error; otherwise it
unconditionally throws "Cancel order not fully implemented".  It never
touches the book. -/
def cancelOrder (argc : Nat) (st : Engine) : JsOutcome × Engine :=
  if argc < 1 then (JsOutcome.wrongArgCount, st)
  else (JsOutcome.notImplemented, st)

/-- `replaceOrder` (`order_book_wrapper.cc` lines 85–96): with fewer than
three arguments it throws a wrong-argument-count error; otherwise it
unconditionally throws "Replace order not fully implemented".  It never
touches the book. -/
def replaceOrder (argc : Nat) (st : Engine) : JsOutcome × Engine :=
  if argc < 3 then (JsOutcome.wrongArgCount, st)
  else (JsOutcome.notImplemented, st)

/-- Well-formedness of one price level: nonempty, positive price, and every
resting order open. -/
def lvlOK (L : Level) : Prop :=
  L.orders ≠ [] ∧ 0 < L.price ∧ ∀ o ∈ L.orders, 0 < o.openQty

instance (L : Level) : Decidable (lvlOK L) := by
  unfold lvlOK; infer_instance

/-- The engine invariant: both sides strictly price-sorted (bids
descending, asks ascending), all levels well-formed, and each side's Depth
Aggregator mirroring its levels entry-for-entry with the aggregate open
quantity. -/
def Inv (st : Engine) : Prop :=
  st.bids.Pairwise (fun a b => b.price < a.price) ∧
  st.asks.Pairwise (fun a b => a.price < b.price) ∧
  (∀ L ∈ st.bids, lvlOK L) ∧
  (∀ L ∈ st.asks, lvlOK L) ∧
  st.bidDepth = st.bids.map levelEntry ∧
  st.askDepth = st.asks.map levelEntry

instance (st : Engine) : Decidable (Inv st) := by
  unfold Inv; infer_instance

/-- Aggregate quantity recorded in a depth list for a given price. -/
def depthLookup (d : List DepthEntry) (p : Nat) : Option Nat :=
  (d.find? (fun e => e.price == p)).map DepthEntry.aggQty

@[simp] theorem sumOpen_nil : sumOpen [] = 0 := rfl

@[simp] theorem sumOpen_cons (o : Order) (os : List Order) :
    sumOpen (o :: os) = o.openQty + sumOpen os := by
  simp [sumOpen]

@[simp] theorem sumOpen_append (os os' : List Order) :
    sumOpen (os ++ os') = sumOpen os + sumOpen os' := by
  simp [sumOpen]

@[simp] theorem tradeSum_nil : tradeSum [] = 0 := rfl

@[simp] theorem tradeSum_cons (t : Trade) (ts : List Trade) :
    tradeSum (t :: ts) = t.qty + tradeSum ts := by
  simp [tradeSum]

@[simp] theorem tradeSum_append (ts ts' : List Trade) :
    tradeSum (ts ++ ts') = tradeSum ts + tradeSum ts' := by
  simp [tradeSum]

theorem matchQueue_zero (a : Bool) (lp : Nat) (os : List Order) :
    matchQueue a lp 0 os = ⟨0, os, []⟩ := by
  cases os with
  | nil => rfl
  | cons r rs => simp [matchQueue]

/-- Quantity bookkeeping of single-level matching: the remaining open
quantity never grows, open quantity is conserved between the incoming
remainder and the trades, and the level's open quantity is conserved
between the surviving orders and the trades. -/
theorem matchQueue_spec (a : Bool) (lp : Nat) (os : List Order) : ∀ opn : Nat,
    (matchQueue a lp opn os).opn ≤ opn ∧
    (matchQueue a lp opn os).opn + tradeSum (matchQueue a lp opn os).trades = opn ∧
    sumOpen (matchQueue a lp opn os).orders +
      tradeSum (matchQueue a lp opn os).trades = sumOpen os := by
  induction os with
  | nil => intro opn; simp [matchQueue]
  | cons r rs ih =>
    intro opn
    by_cases h0 : opn = 0
    · subst h0; simp [matchQueue]
    · simp only [matchQueue, if_neg h0]
      split
      · obtain ⟨h1, h2, h3⟩ := ih opn
        simpa using ⟨h1, h2, by omega⟩
      · obtain ⟨h1, h2, h3⟩ := ih (opn - min opn r.openQty)
        have hm : min opn r.openQty ≤ r.openQty := Nat.min_le_right _ _
        have hm' : min opn r.openQty ≤ opn := Nat.min_le_left _ _
        by_cases hz : r.openQty - min opn r.openQty = 0
        · simp only [hz, if_pos rfl]
          simpa using ⟨by omega, by omega, by omega⟩
        · simp only [if_neg hz]
          simpa using ⟨by omega, by omega, by omega⟩

/-- Orders surviving single-level matching either appear in the original
queue or are the original order with a smaller but positive open
quantity. -/
theorem matchQueue_orders_pres (a : Bool) (lp : Nat) (P : Order → Prop)
    (hmono : ∀ (r : Order) (t : Nat), P r → r.openQty - t ≠ 0 →
      P { r with openQty := r.openQty - t })
    (os : List Order) : ∀ opn : Nat, (∀ r ∈ os, P r) →
    ∀ x ∈ (matchQueue a lp opn os).orders, P x := by
  induction os with
  | nil => intro opn _ x hx; simp [matchQueue] at hx
  | cons r rs ih =>
    intro opn hall x hx
    by_cases h0 : opn = 0
    · subst h0; rw [matchQueue_zero] at hx
      exact hall x hx
    · simp only [matchQueue, if_neg h0] at hx
      have hr : P r := hall r (by simp)
      have hrs : ∀ y ∈ rs, P y := fun y hy => hall y (by simp [hy])
      split at hx
      · simp only [List.mem_cons] at hx
        rcases hx with rfl | hx
        · exact hr
        · exact ih opn hrs x hx
      · by_cases hz : r.openQty - min opn r.openQty = 0
        · simp only [hz, if_pos rfl] at hx
          exact ih (opn - min opn r.openQty) hrs x hx
        · simp only [if_neg hz, List.mem_cons] at hx
          rcases hx with rfl | hx
          · exact hmono r (min opn r.openQty) hr hz
          · exact ih (opn - min opn r.openQty) hrs x hx

/-- Every trade produced by single-level matching has positive quantity,
provided every resting order in the queue is open. -/
theorem matchQueue_trades_pos (a : Bool) (lp : Nat) (os : List Order) :
    ∀ opn : Nat, (∀ r ∈ os, 0 < r.openQty) →
    ∀ t ∈ (matchQueue a lp opn os).trades, 0 < t.qty := by
  induction os with
  | nil => intro opn _ t ht; simp [matchQueue] at ht
  | cons r rs ih =>
    intro opn hall t ht
    by_cases h0 : opn = 0
    · subst h0; rw [matchQueue_zero] at ht; simp at ht
    · simp only [matchQueue, if_neg h0] at ht
      have hrs : ∀ y ∈ rs, 0 < y.openQty := fun y hy => hall y (by simp [hy])
      split at ht
      · exact ih opn hrs t ht
      · simp only [List.mem_cons] at ht
        rcases ht with rfl | ht
        · have := hall r (by simp)
          show 0 < min opn r.openQty
          omega
        · exact ih (opn - min opn r.openQty) hrs t ht

/-- All-or-none preservation for resting orders: a resting all-or-none
order is matched only in its full open quantity, so a surviving
all-or-none order is still wholly unfilled. -/
theorem matchQueue_aon_intact (a : Bool) (lp : Nat) (os : List Order) :
    ∀ opn : Nat, (∀ r ∈ os, r.allOrNone = true → r.openQty = r.initialQty) →
    ∀ x ∈ (matchQueue a lp opn os).orders,
      x.allOrNone = true → x.openQty = x.initialQty := by
  induction os with
  | nil => intro opn _ x hx; simp [matchQueue] at hx
  | cons r rs ih =>
    intro opn hall x hx
    by_cases h0 : opn = 0
    · subst h0; rw [matchQueue_zero] at hx
      exact hall x hx
    · simp only [matchQueue, if_neg h0] at hx
      have hrs : ∀ y ∈ rs, y.allOrNone = true → y.openQty = y.initialQty :=
        fun y hy => hall y (by simp [hy])
      split at hx
      · simp only [List.mem_cons] at hx
        rcases hx with rfl | hx
        · exact hall x (by simp)
        · exact ih opn hrs x hx
      · rename_i hskip
        by_cases hz : r.openQty - min opn r.openQty = 0
        · simp only [hz, if_pos rfl] at hx
          exact ih (opn - min opn r.openQty) hrs x hx
        · simp only [if_neg hz, List.mem_cons] at hx
          rcases hx with rfl | hx
          · intro haon
            have haon' : r.allOrNone = true := haon
            show r.openQty - min opn r.openQty = r.initialQty
            rw [Bool.not_eq_true] at hskip
            simp only [Bool.or_eq_false_iff, Bool.and_eq_false_iff] at hskip
            rcases hskip.2 with h | h
            · rw [haon'] at h; simp at h
            · simp only [decide_eq_false_iff_not, Nat.not_lt] at h
              omega
          · exact ih (opn - min opn r.openQty) hrs x hx

/-- An incoming all-or-none order either trades in one full chunk or not at
all at each level: its remaining quantity after the level is zero or
unchanged. -/
theorem matchQueue_aon_incoming (lp : Nat) (os : List Order) : ∀ opn : Nat,
    (matchQueue true lp opn os).opn = 0 ∨
    (matchQueue true lp opn os).opn = opn := by
  induction os with
  | nil => intro opn; right; rfl
  | cons r rs ih =>
    intro opn
    by_cases h0 : opn = 0
    · subst h0; rw [matchQueue_zero]; left; rfl
    · simp only [matchQueue, if_neg h0]
      split
      · exact ih opn
      · rename_i hskip
        rw [Bool.not_eq_true] at hskip
        simp only [Bool.or_eq_false_iff, Bool.and_eq_false_iff] at hskip
        rcases hskip.1 with h | h
        · simp at h
        · simp only [decide_eq_false_iff_not, Nat.not_lt] at h
          have hmin : min opn r.openQty = opn := Nat.min_eq_left h
          by_cases hz : r.openQty - min opn r.openQty = 0
          · simp only [hz, if_pos rfl, hmin, Nat.sub_self, matchQueue_zero]
            exact Or.inl trivial
          · simp only [if_neg hz, hmin, Nat.sub_self, matchQueue_zero]
            exact Or.inl trivial

/-- FIFO discipline of single-level matching when no all-or-none order is
involved: every order behind the head of the resulting queue is untouched
since it rested. -/
theorem matchQueue_tail_untouched (lp : Nat) (os : List Order) : ∀ opn : Nat,
    (∀ r ∈ os, r.allOrNone = false) →
    (∀ x ∈ os.tail, x.openQty = x.restedQty) →
    ∀ x ∈ (matchQueue false lp opn os).orders.tail,
      x.openQty = x.restedQty := by
  induction os with
  | nil => intro opn _ _ x hx; simp [matchQueue] at hx
  | cons r rs ih =>
    intro opn hnoaon htail x hx
    by_cases h0 : opn = 0
    · subst h0; rw [matchQueue_zero] at hx
      exact htail x hx
    · simp only [matchQueue, if_neg h0] at hx
      have hnors : ∀ y ∈ rs, y.allOrNone = false :=
        fun y hy => hnoaon y (by simp [hy])
      have htailrs : ∀ y ∈ rs.tail, y.openQty = y.restedQty :=
        fun y hy => htail y (List.mem_of_mem_tail hy)
      split at hx
      · rename_i hskip
        rw [hnoaon r (by simp)] at hskip
        simp at hskip
      · by_cases hz : r.openQty - min opn r.openQty = 0
        · simp only [hz, if_pos rfl] at hx
          exact ih (opn - min opn r.openQty) hnors htailrs x hx
        · have hmin : min opn r.openQty = opn := by omega
          rw [hmin] at hz hx
          simp only [Nat.sub_self, matchQueue_zero, if_neg hz, List.tail_cons] at hx
          exact htail x hx

theorem matchLevelsD_zero (b a : Bool) (oP : Nat) (ls : List Level)
    (d : List DepthEntry) : matchLevelsD b a oP 0 ls d = ⟨0, ls, d, []⟩ := by
  cases ls with
  | nil => rfl
  | cons L rest =>
    cases d with
    | nil => rfl
    | cons e dRest => simp [matchLevelsD]

/-- Quantity bookkeeping of the level walk: the remaining open quantity
never grows and is conserved together with the trades. -/
theorem matchLevelsD_spec (b a : Bool) (oP : Nat) (ls : List Level) :
    ∀ (opn : Nat) (d : List DepthEntry),
    (matchLevelsD b a oP opn ls d).opn ≤ opn ∧
    (matchLevelsD b a oP opn ls d).opn +
      tradeSum (matchLevelsD b a oP opn ls d).trades = opn := by
  induction ls with
  | nil => intro opn d; simp [matchLevelsD]
  | cons L rest ih =>
    intro opn d
    cases d with
    | nil => simp [matchLevelsD]
    | cons e dRest =>
      by_cases h0 : opn = 0
      · subst h0; rw [matchLevelsD_zero]; simp
      · simp only [matchLevelsD, if_neg h0]
        split
        · obtain ⟨hq1, hq2, _⟩ := matchQueue_spec a L.price L.orders opn
          obtain ⟨hr1, hr2⟩ := ih (matchQueue a L.price opn L.orders).opn dRest
          split
          · simpa using ⟨by omega, by omega⟩
          · simpa using ⟨by omega, by omega⟩
        · simp

/-- Every trade of the level walk has positive quantity when every resting
order on the side is open. -/
theorem matchLevelsD_trades_pos (b a : Bool) (oP : Nat) (ls : List Level) :
    ∀ (opn : Nat) (d : List DepthEntry),
    (∀ L ∈ ls, ∀ o ∈ L.orders, 0 < o.openQty) →
    ∀ t ∈ (matchLevelsD b a oP opn ls d).trades, 0 < t.qty := by
  induction ls with
  | nil => intro opn d _ t ht; simp [matchLevelsD] at ht
  | cons L rest ih =>
    intro opn d hok t ht
    cases d with
    | nil => simp [matchLevelsD] at ht
    | cons e dRest =>
      by_cases h0 : opn = 0
      · rw [h0, matchLevelsD_zero] at ht; simp at ht
      · simp only [matchLevelsD, if_neg h0] at ht
        have hrest : ∀ X ∈ rest, ∀ o ∈ X.orders, 0 < o.openQty :=
          fun X hX => hok X (by simp [hX])
        split at ht
        · split at ht <;>
          · simp only [List.mem_append] at ht
            rcases ht with h | h
            · exact matchQueue_trades_pos a L.price L.orders opn
                (hok L (by simp)) t h
            · exact ih _ dRest hrest t h
        · simp at ht

/-- Pointwise preservation of an order property through the level walk. -/
theorem matchLevelsD_orders_pres (b a : Bool) (oP : Nat) (P : Order → Prop)
    (hmono : ∀ (r : Order) (t : Nat), P r → r.openQty - t ≠ 0 →
      P { r with openQty := r.openQty - t })
    (ls : List Level) : ∀ (opn : Nat) (d : List DepthEntry),
    (∀ L ∈ ls, ∀ o ∈ L.orders, P o) →
    ∀ L' ∈ (matchLevelsD b a oP opn ls d).levels, ∀ o ∈ L'.orders, P o := by
  induction ls with
  | nil => intro opn d _ L' hL'; simp [matchLevelsD] at hL'
  | cons L rest ih =>
    intro opn d hok L' hL'
    cases d with
    | nil =>
      simp only [matchLevelsD] at hL'
      exact hok L' hL'
    | cons e dRest =>
      by_cases h0 : opn = 0
      · rw [h0, matchLevelsD_zero] at hL'
        exact hok L' hL'
      · simp only [matchLevelsD, if_neg h0] at hL'
        have hrest : ∀ X ∈ rest, ∀ o ∈ X.orders, P o :=
          fun X hX => hok X (by simp [hX])
        split at hL'
        · split at hL'
          · exact ih _ dRest hrest L' hL'
          · simp only [List.mem_cons] at hL'
            rcases hL' with rfl | h
            · intro o ho
              exact matchQueue_orders_pres a L.price P hmono L.orders opn
                (hok L (by simp)) o ho
            · exact ih _ dRest hrest L' h
        · exact hok L' hL'

/-- All-or-none resting orders stay wholly unfilled through the level
walk. -/
theorem matchLevelsD_aon_intact (b a : Bool) (oP : Nat) (ls : List Level) :
    ∀ (opn : Nat) (d : List DepthEntry),
    (∀ L ∈ ls, ∀ o ∈ L.orders, o.allOrNone = true → o.openQty = o.initialQty) →
    ∀ L' ∈ (matchLevelsD b a oP opn ls d).levels, ∀ o ∈ L'.orders,
      o.allOrNone = true → o.openQty = o.initialQty := by
  induction ls with
  | nil => intro opn d _ L' hL'; simp [matchLevelsD] at hL'
  | cons L rest ih =>
    intro opn d hok L' hL'
    cases d with
    | nil =>
      simp only [matchLevelsD] at hL'
      exact hok L' hL'
    | cons e dRest =>
      by_cases h0 : opn = 0
      · rw [h0, matchLevelsD_zero] at hL'
        exact hok L' hL'
      · simp only [matchLevelsD, if_neg h0] at hL'
        have hrest : ∀ X ∈ rest, ∀ o ∈ X.orders,
            o.allOrNone = true → o.openQty = o.initialQty :=
          fun X hX => hok X (by simp [hX])
        split at hL'
        · split at hL'
          · exact ih _ dRest hrest L' hL'
          · simp only [List.mem_cons] at hL'
            rcases hL' with rfl | h
            · intro o ho
              exact matchQueue_aon_intact a L.price L.orders opn
                (hok L (by simp)) o ho
            · exact ih _ dRest hrest L' h
        · exact hok L' hL'

/-- An incoming all-or-none order matches fully or not at all over the
whole walk. -/
theorem matchLevelsD_aon_incoming (b : Bool) (oP : Nat) (ls : List Level) :
    ∀ (opn : Nat) (d : List DepthEntry),
    (matchLevelsD b true oP opn ls d).opn = 0 ∨
    (matchLevelsD b true oP opn ls d).opn = opn := by
  induction ls with
  | nil => intro opn d; right; rfl
  | cons L rest ih =>
    intro opn d
    cases d with
    | nil => right; rfl
    | cons e dRest =>
      by_cases h0 : opn = 0
      · rw [h0, matchLevelsD_zero]; left; rfl
      · simp only [matchLevelsD, if_neg h0]
        split
        · rcases matchQueue_aon_incoming L.price L.orders opn with hq | hq
          · rw [hq, matchLevelsD_zero]
            split
            · left; rfl
            · left; rfl
          · rw [hq]
            rcases ih opn dRest with hr | hr
            · split
              · left; exact hr
              · left; exact hr
            · split
              · right; exact hr
              · right; exact hr
        · right; rfl

/-- FIFO discipline through the level walk without all-or-none orders:
non-head orders of every level stay untouched since they rested. -/
theorem matchLevelsD_tail_untouched (b : Bool) (oP : Nat) (ls : List Level) :
    ∀ (opn : Nat) (d : List DepthEntry),
    (∀ L ∈ ls, ∀ o ∈ L.orders, o.allOrNone = false) →
    (∀ L ∈ ls, ∀ x ∈ L.orders.tail, x.openQty = x.restedQty) →
    ∀ L' ∈ (matchLevelsD b false oP opn ls d).levels, ∀ x ∈ L'.orders.tail,
      x.openQty = x.restedQty := by
  induction ls with
  | nil => intro opn d _ _ L' hL'; simp [matchLevelsD] at hL'
  | cons L rest ih =>
    intro opn d hno htl L' hL'
    cases d with
    | nil =>
      simp only [matchLevelsD] at hL'
      exact htl L' hL'
    | cons e dRest =>
      by_cases h0 : opn = 0
      · rw [h0, matchLevelsD_zero] at hL'
        exact htl L' hL'
      · simp only [matchLevelsD, if_neg h0] at hL'
        have hnorest : ∀ X ∈ rest, ∀ o ∈ X.orders, o.allOrNone = false :=
          fun X hX => hno X (by simp [hX])
        have htlrest : ∀ X ∈ rest, ∀ x ∈ X.orders.tail,
            x.openQty = x.restedQty :=
          fun X hX => htl X (by simp [hX])
        split at hL'
        · split at hL'
          · exact ih _ dRest hnorest htlrest L' hL'
          · simp only [List.mem_cons] at hL'
            rcases hL' with rfl | h
            · intro x hx
              exact matchQueue_tail_untouched L.price L.orders opn
                (hno L (by simp)) (htl L (by simp)) x hx
            · exact ih _ dRest hnorest htlrest L' h
        · exact htl L' hL'

/-- The central Depth Aggregator synchronization: if the depth list mirrors
the side's levels entry-for-entry, then after the level walk the updated
depth still mirrors the surviving levels, all surviving levels are
well-formed, and the surviving price sequence is a subsequence of the
original one. -/
theorem matchLevelsD_depth_sync (b a : Bool) (oP : Nat) (ls : List Level) :
    ∀ (opn : Nat) (d : List DepthEntry),
    d = ls.map levelEntry → (∀ L ∈ ls, lvlOK L) →
    (matchLevelsD b a oP opn ls d).depth =
      (matchLevelsD b a oP opn ls d).levels.map levelEntry ∧
    (∀ L' ∈ (matchLevelsD b a oP opn ls d).levels, lvlOK L') ∧
    List.Sublist ((matchLevelsD b a oP opn ls d).levels.map Level.price)
      (ls.map Level.price) := by
  induction ls with
  | nil =>
    intro opn d hd hok
    subst hd
    simp [matchLevelsD]
  | cons L rest ih =>
    intro opn d hd hok
    subst hd
    by_cases h0 : opn = 0
    · subst h0
      rw [matchLevelsD_zero]
      exact ⟨rfl, hok, List.Sublist.refl _⟩
    · rw [List.map_cons]
      simp only [matchLevelsD, if_neg h0]
      split
      · have hokL := hok L (by simp)
        have hpos : ∀ o ∈ L.orders, 0 < o.openQty := hokL.2.2
        obtain ⟨hq1, hq2, hq3⟩ := matchQueue_spec a L.price L.orders opn
        have hqpos : ∀ x ∈ (matchQueue a L.price opn L.orders).orders,
            0 < x.openQty :=
          matchQueue_orders_pres a L.price (fun o => 0 < o.openQty)
            (fun r t _ h => by simpa using by omega) L.orders opn hpos
        obtain ⟨ih1, ih2, ih3⟩ := ih (matchQueue a L.price opn L.orders).opn
          (rest.map levelEntry) rfl (fun X hX => hok X (by simp [hX]))
        split
        · rename_i hemp
          refine ⟨ih1, ih2, ih3.trans (List.sublist_cons_self _ _)⟩
        · rename_i hemp
          have hne : (matchQueue a L.price opn L.orders).orders ≠ [] := by
            simpa [List.isEmpty_iff] using hemp
          have hent : sumOpen L.orders - (opn -
              (matchQueue a L.price opn L.orders).opn) =
              sumOpen (matchQueue a L.price opn L.orders).orders := by
            omega
          refine ⟨?_, ?_, ?_⟩
          · simp only [List.map_cons, levelEntry, ih1, hent]
          · intro L' hL'
            rcases List.mem_cons.mp hL' with rfl | h
            · exact ⟨hne, hokL.2.1, hqpos⟩
            · exact ih2 L' h
          · simp only [List.map_cons]
            exact ih3.cons₂ L.price
      · exact ⟨rfl, hok, List.Sublist.refl _⟩

/-- Resting insertion commutes with the Depth Aggregator update: inserting
an order into the levels and adding its quantity into the depth list land
at the same position with the same aggregate. -/
theorem insertOrder_depth (ahead : Nat → Nat → Bool) (o : Order)
    (ls : List Level) :
    (insertOrder ahead o ls).map levelEntry =
      depthInsert ahead o.price o.openQty (ls.map levelEntry) := by
  induction ls with
  | nil => simp [insertOrder, depthInsert, levelEntry]
  | cons L rest ih =>
    by_cases he : L.price = o.price
    · simp [insertOrder, depthInsert, levelEntry, he]
    · by_cases ha : ahead o.price L.price = true
      · simp [insertOrder, depthInsert, levelEntry, he, ha,
          Ne.symm he]
      · simp [insertOrder, depthInsert, levelEntry, he, ha, Ne.symm he, ih]

/-- Prices appearing after a resting insertion: the new order's price or a
price already present. -/
theorem insertOrder_price_mem (ahead : Nat → Nat → Bool) (o : Order)
    (ls : List Level) :
    ∀ X ∈ insertOrder ahead o ls,
      X.price = o.price ∨ X.price ∈ ls.map Level.price := by
  induction ls with
  | nil =>
    intro X hX
    simp only [insertOrder, List.mem_singleton] at hX
    subst hX; left; rfl
  | cons L rest ih =>
    intro X hX
    simp only [insertOrder] at hX
    split at hX
    · rename_i he
      rcases List.mem_cons.mp hX with rfl | h
      · right; simp
      · right; simp [List.mem_cons.mpr (Or.inr h), List.mem_map]
        exact Or.inr ⟨X, h, rfl⟩
    · split at hX
      · rcases List.mem_cons.mp hX with rfl | h
        · left; rfl
        · rcases List.mem_cons.mp h with rfl | h'
          · right; simp
          · right
            simp only [List.map_cons, List.mem_cons, List.mem_map]
            exact Or.inr ⟨X, h', rfl⟩
      · rcases List.mem_cons.mp hX with rfl | h
        · right; simp
        · rcases ih X h with h' | h'
          · left; exact h'
          · right; simp only [List.map_cons, List.mem_cons]
            exact Or.inr h'

/-- Sortedness is preserved by resting insertion, given a total transitive
strict ahead-of ordering. -/
theorem insertOrder_pairwise (ahead : Nat → Nat → Bool) (o : Order)
    (ls : List Level)
    (htot : ∀ p q : Nat, p ≠ q → ahead p q = true ∨ ahead q p = true)
    (htr : ∀ p q r : Nat, ahead p q = true → ahead q r = true →
      ahead p r = true)
    (hs : ls.Pairwise (fun A B => ahead A.price B.price = true)) :
    (insertOrder ahead o ls).Pairwise
      (fun A B => ahead A.price B.price = true) := by
  induction ls with
  | nil => simp [insertOrder]
  | cons L rest ih =>
    rw [List.pairwise_cons] at hs
    obtain ⟨hL, hrest⟩ := hs
    simp only [insertOrder]
    split
    · rename_i he
      rw [List.pairwise_cons]
      exact ⟨hL, hrest⟩
    · rename_i he
      split
      · rename_i ha
        rw [List.pairwise_cons]
        constructor
        · intro B hB
          rcases List.mem_cons.mp hB with rfl | h
          · exact ha
          · exact htr o.price L.price B.price ha (hL B h)
        · rw [List.pairwise_cons]
          exact ⟨hL, hrest⟩
      · rename_i ha
        rw [List.pairwise_cons]
        constructor
        · intro B hB
          rcases insertOrder_price_mem ahead o rest B hB with h | h
          · rcases htot o.price L.price (fun hc => he hc.symm) with h' | h'
            · exact absurd h' ha
            · rw [h]; exact h'
          · obtain ⟨C, hC, hCp⟩ := List.mem_map.mp h
            rw [← hCp]
            exact hL C hC
        · exact ih hrest

/-- Well-formed levels stay well-formed under resting insertion of an open
order with positive price. -/
theorem insertOrder_lvlOK (ahead : Nat → Nat → Bool) (o : Order)
    (ls : List Level) (hok : ∀ L ∈ ls, lvlOK L) (hp : 0 < o.price)
    (hq : 0 < o.openQty) : ∀ L ∈ insertOrder ahead o ls, lvlOK L := by
  induction ls with
  | nil =>
    intro L hL
    simp only [insertOrder, List.mem_singleton] at hL
    subst hL
    refine ⟨by simp, hp, ?_⟩
    intro x hx
    simp only [List.mem_singleton] at hx
    subst hx; exact hq
  | cons L rest ih =>
    intro X hX
    have hokL := hok L (by simp)
    have hokrest : ∀ Y ∈ rest, lvlOK Y := fun Y hY => hok Y (by simp [hY])
    simp only [insertOrder] at hX
    split at hX
    · rename_i he
      rcases List.mem_cons.mp hX with rfl | h
      · refine ⟨by simp, hokL.2.1, ?_⟩
        intro x hx
        rcases List.mem_append.mp hx with h' | h'
        · exact hokL.2.2 x h'
        · simp only [List.mem_singleton] at h'
          subst h'; exact hq
      · exact hokrest X h
    · split at hX
      · rcases List.mem_cons.mp hX with rfl | h
        · refine ⟨by simp, hp, ?_⟩
          intro x hx
          simp only [List.mem_singleton] at hx
          subst hx; exact hq
        · rcases List.mem_cons.mp h with rfl | h'
          · exact hokL
          · exact hokrest X h'
      · rcases List.mem_cons.mp hX with rfl | h
        · exact hokL
        · exact ih hokrest X h

/-- Orders present after a resting insertion: the inserted order or an
order already resting. -/
theorem insertOrder_orders_mem (ahead : Nat → Nat → Bool) (o : Order)
    (ls : List Level) :
    ∀ L' ∈ insertOrder ahead o ls, ∀ x ∈ L'.orders,
      x = o ∨ ∃ L ∈ ls, x ∈ L.orders := by
  induction ls with
  | nil =>
    intro L' hL' x hx
    simp only [insertOrder, List.mem_singleton] at hL'
    subst hL'
    simp only [List.mem_singleton] at hx
    exact Or.inl hx
  | cons L rest ih =>
    intro L' hL' x hx
    simp only [insertOrder] at hL'
    split at hL'
    · rcases List.mem_cons.mp hL' with rfl | h
      · simp only [List.mem_append, List.mem_singleton] at hx
        rcases hx with h' | h'
        · exact Or.inr ⟨L, by simp, h'⟩
        · exact Or.inl h'
      · exact Or.inr ⟨L', by simp [h], hx⟩
    · split at hL'
      · rcases List.mem_cons.mp hL' with rfl | h
        · simp only [List.mem_singleton] at hx
          exact Or.inl hx
        · rcases List.mem_cons.mp h with rfl | h'
          · exact Or.inr ⟨L', by simp, hx⟩
          · exact Or.inr ⟨L', by simp [h'], hx⟩
      · rcases List.mem_cons.mp hL' with rfl | h
        · exact Or.inr ⟨L', by simp, hx⟩
        · rcases ih L' h x hx with h' | h'
          · exact Or.inl h'
          · obtain ⟨C, hC, hxC⟩ := h'
            exact Or.inr ⟨C, by simp [hC], hxC⟩

/-- FIFO bookkeeping of resting insertion: the inserted order goes to the
tail of its level with its rested quantity equal to its open quantity, so
non-head orders stay untouched-since-rest. -/
theorem insertOrder_tail_untouched (ahead : Nat → Nat → Bool) (o : Order)
    (ls : List Level) (hok : ∀ L ∈ ls, L.orders ≠ [])
    (ho : o.openQty = o.restedQty)
    (htl : ∀ L ∈ ls, ∀ x ∈ L.orders.tail, x.openQty = x.restedQty) :
    ∀ L' ∈ insertOrder ahead o ls, ∀ x ∈ L'.orders.tail,
      x.openQty = x.restedQty := by
  induction ls with
  | nil =>
    intro L' hL' x hx
    simp only [insertOrder, List.mem_singleton] at hL'
    subst hL'
    simp at hx
  | cons L rest ih =>
    intro L' hL' x hx
    have hokrest : ∀ Y ∈ rest, Y.orders ≠ [] := fun Y hY => hok Y (by simp [hY])
    have htlrest : ∀ Y ∈ rest, ∀ x ∈ Y.orders.tail, x.openQty = x.restedQty :=
      fun Y hY => htl Y (by simp [hY])
    simp only [insertOrder] at hL'
    split at hL'
    · rcases List.mem_cons.mp hL' with rfl | h
      · obtain ⟨y, ys, hys⟩ := List.exists_cons_of_ne_nil (hok L (by simp))
        simp only [hys, List.cons_append, List.tail_cons, List.mem_append,
          List.mem_singleton] at hx
        rcases hx with h' | h'
        · exact htl L (by simp) x (by simp [hys, h'])
        · subst h'; exact ho.symm ▸ ho
      · exact htlrest L' h x hx
    · split at hL'
      · rcases List.mem_cons.mp hL' with rfl | h
        · simp at hx
        · rcases List.mem_cons.mp h with rfl | h'
          · exact htl L' (by simp) x hx
          · exact htlrest L' h' x hx
      · rcases List.mem_cons.mp hL' with rfl | h
        · exact htl L' (by simp) x hx
        · exact ih hokrest htlrest L' h x hx

theorem bidAhead_total (p q : Nat) (h : p ≠ q) :
    bidAhead p q = true ∨ bidAhead q p = true := by
  simp only [bidAhead, decide_eq_true_eq]
  omega

theorem bidAhead_trans (p q r : Nat) (h1 : bidAhead p q = true)
    (h2 : bidAhead q r = true) : bidAhead p r = true := by
  simp only [bidAhead, decide_eq_true_eq] at *
  omega

theorem askAhead_total (p q : Nat) (h : p ≠ q) :
    askAhead p q = true ∨ askAhead q p = true := by
  simp only [askAhead, decide_eq_true_eq]
  omega

theorem askAhead_trans (p q r : Nat) (h1 : askAhead p q = true)
    (h2 : askAhead q r = true) : askAhead p r = true := by
  simp only [askAhead, decide_eq_true_eq] at *
  omega

theorem pairwise_bidAhead_iff (ls : List Level) :
    ls.Pairwise (fun A B => bidAhead A.price B.price = true) ↔
    ls.Pairwise (fun a b => b.price < a.price) := by
  constructor
  · intro h; exact h.imp (fun h' => by simpa [bidAhead] using h')
  · intro h; exact h.imp (fun h' => by simpa [bidAhead] using h')

theorem pairwise_askAhead_iff (ls : List Level) :
    ls.Pairwise (fun A B => askAhead A.price B.price = true) ↔
    ls.Pairwise (fun a b => a.price < b.price) := by
  constructor
  · intro h; exact h.imp (fun h' => by simpa [askAhead] using h')
  · intro h; exact h.imp (fun h' => by simpa [askAhead] using h')

/-- The engine invariant is preserved by the core add operation. -/
theorem addCore_inv (o : Order) (st : Engine) (h : Inv st) :
    Inv (addCore o st).2.1 := by
  obtain ⟨hb, ha, hbok, haok, hbd, had⟩ := h
  by_cases h0 : o.openQty = 0
  · simp only [addCore, if_pos h0]
    exact ⟨hb, ha, hbok, haok, hbd, had⟩
  · by_cases hstop : o.stopPrice = 0
    · have hstop' : ¬o.stopPrice ≠ 0 := by simpa using hstop
      by_cases hside : o.isBuy = true
      · simp only [addCore, if_neg h0, if_neg hstop', if_pos hside]
        set m := matchLevelsD true o.allOrNone o.price o.openQty st.asks
          st.askDepth with hm
        obtain ⟨sync1, sync2, sync3⟩ :=
          matchLevelsD_depth_sync true o.allOrNone o.price st.asks
            o.openQty st.askDepth had haok
        rw [← hm] at sync1 sync2 sync3
        have ha2 : m.levels.Pairwise (fun a b => a.price < b.price) := by
          have hmap : (st.asks.map Level.price).Pairwise
              (fun a b => a < b) := List.pairwise_map.mpr ha
          exact List.pairwise_map.mp (List.Pairwise.sublist sync3 hmap)
        split
        · exact ⟨hb, ha2, hbok, sync2, hbd, sync1⟩
        · rename_i hcond
          push_neg at hcond
          obtain ⟨hopn, _, hprice⟩ := hcond
          refine ⟨?_, ha2, ?_, sync2, ?_, sync1⟩
          · rw [← pairwise_bidAhead_iff]
            exact insertOrder_pairwise bidAhead (restOrder o m.opn) st.bids
              bidAhead_total bidAhead_trans
              ((pairwise_bidAhead_iff st.bids).mpr hb)
          · exact insertOrder_lvlOK bidAhead (restOrder o m.opn) st.bids hbok
              (Nat.pos_of_ne_zero hprice) (Nat.pos_of_ne_zero hopn)
          · show depthInsert bidAhead o.price m.opn st.bidDepth =
              (insertOrder bidAhead (restOrder o m.opn) st.bids).map levelEntry
            rw [hbd]
            exact (insertOrder_depth bidAhead (restOrder o m.opn) st.bids).symm
      · have hside' : o.isBuy = false := by
          revert hside; cases o.isBuy <;> simp
        simp only [addCore, if_neg h0, if_neg hstop', hside', Bool.false_eq_true,
          if_false]
        set m := matchLevelsD false o.allOrNone o.price o.openQty st.bids
          st.bidDepth with hm
        obtain ⟨sync1, sync2, sync3⟩ :=
          matchLevelsD_depth_sync false o.allOrNone o.price st.bids
            o.openQty st.bidDepth hbd hbok
        rw [← hm] at sync1 sync2 sync3
        have hb2 : m.levels.Pairwise (fun a b => b.price < a.price) := by
          have hmap : (st.bids.map Level.price).Pairwise
              (fun a b => b < a) := List.pairwise_map.mpr hb
          exact List.pairwise_map.mp (List.Pairwise.sublist sync3 hmap)
        split
        · exact ⟨hb2, ha, sync2, haok, sync1, had⟩
        · rename_i hcond
          push_neg at hcond
          obtain ⟨hopn, _, hprice⟩ := hcond
          refine ⟨hb2, ?_, sync2, ?_, sync1, ?_⟩
          · rw [← pairwise_askAhead_iff]
            exact insertOrder_pairwise askAhead (restOrder o m.opn) st.asks
              askAhead_total askAhead_trans
              ((pairwise_askAhead_iff st.asks).mpr ha)
          · exact insertOrder_lvlOK askAhead (restOrder o m.opn) st.asks haok
              (Nat.pos_of_ne_zero hprice) (Nat.pos_of_ne_zero hopn)
          · show depthInsert askAhead o.price m.opn st.askDepth =
              (insertOrder askAhead (restOrder o m.opn) st.asks).map levelEntry
            rw [had]
            exact (insertOrder_depth askAhead (restOrder o m.opn) st.asks).symm
    · have hstop' : o.stopPrice ≠ 0 := hstop
      simp only [addCore, if_neg h0, if_pos hstop']
      exact ⟨hb, ha, hbok, haok, hbd, had⟩

/-- The core add reports a match exactly when it produced a trade. -/
theorem addCore_matched_iff (o : Order) (st : Engine) (h : Inv st) :
    ((addCore o st).1 = true ↔ (addCore o st).2.2 ≠ []) := by
  obtain ⟨hb, ha, hbok, haok, hbd, had⟩ := h
  by_cases h0 : o.openQty = 0
  · simp [addCore, if_pos h0]
  · by_cases hstop : o.stopPrice = 0
    · have hstop' : ¬o.stopPrice ≠ 0 := by simpa using hstop
      by_cases hside : o.isBuy = true
      · simp only [addCore, if_neg h0, if_neg hstop', if_pos hside]
        set m := matchLevelsD true o.allOrNone o.price o.openQty st.asks
          st.askDepth with hm
        obtain ⟨hs1, hs2⟩ := matchLevelsD_spec true o.allOrNone o.price
          st.asks o.openQty st.askDepth
        rw [← hm] at hs1 hs2
        have hpos : ∀ t ∈ m.trades, 0 < t.qty := by
          rw [hm]
          exact matchLevelsD_trades_pos true o.allOrNone o.price st.asks
            o.openQty st.askDepth (fun L hL => (haok L hL).2.2)
        show decide (m.opn < o.openQty) = true ↔ m.trades ≠ []
        rw [decide_eq_true_eq]
        constructor
        · intro hlt hnil
          rw [hnil] at hs2
          simp only [tradeSum_nil] at hs2
          omega
        · intro hne
          obtain ⟨t, ts, ht⟩ := List.exists_cons_of_ne_nil hne
          have htp : 0 < t.qty := hpos t (by rw [ht]; simp)
          rw [ht] at hs2
          simp only [tradeSum_cons] at hs2
          omega
      · have hside' : o.isBuy = false := by
          revert hside; cases o.isBuy <;> simp
        simp only [addCore, if_neg h0, if_neg hstop', hside',
          Bool.false_eq_true, if_false]
        set m := matchLevelsD false o.allOrNone o.price o.openQty st.bids
          st.bidDepth with hm
        obtain ⟨hs1, hs2⟩ := matchLevelsD_spec false o.allOrNone o.price
          st.bids o.openQty st.bidDepth
        rw [← hm] at hs1 hs2
        have hpos : ∀ t ∈ m.trades, 0 < t.qty := by
          rw [hm]
          exact matchLevelsD_trades_pos false o.allOrNone o.price st.bids
            o.openQty st.bidDepth (fun L hL => (hbok L hL).2.2)
        show decide (m.opn < o.openQty) = true ↔ m.trades ≠ []
        rw [decide_eq_true_eq]
        constructor
        · intro hlt hnil
          rw [hnil] at hs2
          simp only [tradeSum_nil] at hs2
          omega
        · intro hne
          obtain ⟨t, ts, ht⟩ := List.exists_cons_of_ne_nil hne
          have htp : 0 < t.qty := hpos t (by rw [ht]; simp)
          rw [ht] at hs2
          simp only [tradeSum_cons] at hs2
          omega
    · have hstop' : o.stopPrice ≠ 0 := hstop
      simp [addCore, if_neg h0, if_pos hstop']

/-- Re-submitting an order with a cleared stop price never touches the
Stop Order Set. -/
theorem addCore_stops_clear (o : Order) (st : Engine) (h : o.stopPrice = 0) :
    (addCore o st).2.1.stops = st.stops := by
  by_cases h0 : o.openQty = 0
  · simp [addCore, h0]
  · have hstop' : ¬o.stopPrice ≠ 0 := by simpa using h
    by_cases hside : o.isBuy = true
    · simp only [addCore, if_neg h0, if_neg hstop', if_pos hside]
      split <;> rfl
    · have hside' : o.isBuy = false := by
        revert hside; cases o.isBuy <;> simp
      simp only [addCore, if_neg h0, if_neg hstop', hside',
        Bool.false_eq_true, if_false]
      split <;> rfl

theorem runQueue_nilQueue (f : Nat) (st : Engine) : runQueue f [] st = (st, []) := by
  cases f <;> rfl

theorem Inv_fields (st : Engine) (s : List Order) (mp : Option Nat) (n : Nat)
    (h : Inv st) :
    Inv { st with stops := s, marketPrice := mp, nextId := n } := by
  obtain ⟨hb, ha, hbok, haok, hbd, had⟩ := h
  exact ⟨hb, ha, hbok, haok, hbd, had⟩

/-- The engine invariant is preserved by the stop-activation work queue. -/
theorem runQueue_inv (f : Nat) : ∀ (q : List Order) (st : Engine),
    Inv st → Inv (runQueue f q st).1 := by
  induction f with
  | zero => intro q st h; exact h
  | succ f ih =>
    intro q st h
    cases q with
    | nil => exact h
    | cons o rest =>
      simp only [runQueue]
      have hc := addCore_inv (clearStop o) st h
      cases hl : (addCore (clearStop o) st).2.2.getLast? with
      | none => exact ih rest _ hc
      | some t => exact ih _ _ (Inv_fields _ _ _ _ hc)

/-- The work queue only ever removes orders from the Stop Order Set. -/
theorem runQueue_stops_subset (f : Nat) : ∀ (q : List Order) (st : Engine),
    (runQueue f q st).1.stops ⊆ st.stops := by
  induction f with
  | zero => intro q st; exact fun x hx => hx
  | succ f ih =>
    intro q st
    cases q with
    | nil => exact fun x hx => hx
    | cons o rest =>
      simp only [runQueue]
      cases hl : (addCore (clearStop o) st).2.2.getLast? with
      | none =>
        intro x hx
        have hx' := ih rest _ hx
        rwa [addCore_stops_clear (clearStop o) st rfl] at hx'
      | some t =>
        intro x hx
        have h1 := ih _ _ hx
        simp only [List.partition_eq_filter_filter] at h1
        have h2 := List.filter_subset' _ h1
        rwa [addCore_stops_clear (clearStop o) st rfl] at h2

theorem priceUpdate_inv (p : Nat) (st : Engine) (h : Inv st) :
    Inv (priceUpdate p st).1 := by
  unfold priceUpdate
  exact runQueue_inv _ _ _ (Inv_fields _ _ _ _ h)

theorem setMarketPrice_inv (p : Nat) (st : Engine) (h : Inv st) :
    Inv (setMarketPrice p st) := priceUpdate_inv p st h

theorem addOrder_inv (o : Order) (st : Engine) (h : Inv st) :
    Inv (addOrder o st).2.1 := by
  by_cases h0 : o.openQty = 0
  · simpa [addOrder, h0] using h
  · simp only [addOrder, if_neg h0]
    have h2 := addCore_inv { o with id := st.nextId }
      { st with nextId := st.nextId + 1 } (Inv_fields _ _ _ _ h)
    cases hl : (addCore { o with id := st.nextId }
        { st with nextId := st.nextId + 1 }).2.2.getLast? with
    | none => exact h2
    | some t => exact priceUpdate_inv _ _ h2

theorem Inv_empty : Inv emptyEngine := by
  refine ⟨List.Pairwise.nil, List.Pairwise.nil, ?_, ?_, rfl, rfl⟩ <;>
    intro L hL <;> simp [emptyEngine] at hL

/-- Every state reachable by a sequence of adds from the empty book
satisfies the engine invariant. -/
theorem runAdds_inv (is : List OrderInput) : Inv (runAdds is) := by
  unfold runAdds
  suffices h : ∀ st, Inv st →
      Inv (is.foldl (fun st i => (addOrder (inputOrder i) st).2.1) st) from
    h emptyEngine Inv_empty
  induction is with
  | nil => intro st h; exact h
  | cons i rest ih =>
    intro st h
    exact ih _ (addOrder_inv _ _ h)

/-- All-or-none integrity: every all-or-none order resting in the book is
wholly unfilled, and every order in the Stop Order Set is untouched. -/
def AONInv (st : Engine) : Prop :=
  (∀ L ∈ st.bids, ∀ o ∈ L.orders, o.allOrNone = true → o.openQty = o.initialQty) ∧
  (∀ L ∈ st.asks, ∀ o ∈ L.orders, o.allOrNone = true → o.openQty = o.initialQty) ∧
  (∀ o ∈ st.stops, o.openQty = o.initialQty)

theorem addCore_aon (o : Order) (st : Engine) (h : AONInv st)
    (ho : o.openQty = o.initialQty) : AONInv (addCore o st).2.1 := by
  obtain ⟨hB, hA, hS⟩ := h
  by_cases h0 : o.openQty = 0
  · simp only [addCore, if_pos h0]
    exact ⟨hB, hA, hS⟩
  · by_cases hstop : o.stopPrice = 0
    · have hstop' : ¬o.stopPrice ≠ 0 := by simpa using hstop
      by_cases hside : o.isBuy = true
      · simp only [addCore, if_neg h0, if_neg hstop', if_pos hside]
        set m := matchLevelsD true o.allOrNone o.price o.openQty st.asks
          st.askDepth with hm
        have hA' : ∀ L ∈ m.levels, ∀ x ∈ L.orders,
            x.allOrNone = true → x.openQty = x.initialQty := by
          rw [hm]
          exact matchLevelsD_aon_intact true o.allOrNone o.price st.asks
            o.openQty st.askDepth hA
        split
        · exact ⟨hB, hA', hS⟩
        · rename_i hcond
          push_neg at hcond
          refine ⟨?_, hA', hS⟩
          intro L hL x hx haon
          rcases insertOrder_orders_mem bidAhead (restOrder o m.opn) st.bids
              L hL x hx with rfl | ⟨C, hC, hxC⟩
          · show m.opn = o.initialQty
            have haon' : o.allOrNone = true := haon
            have hinc : m.opn = 0 ∨ m.opn = o.openQty := by
              rw [hm, haon']
              exact matchLevelsD_aon_incoming true o.price st.asks
                o.openQty st.askDepth
            rcases hinc with h' | h'
            · exact absurd h' hcond.1
            · rw [h', ho]
          · exact hB C hC x hxC haon
      · have hside' : o.isBuy = false := by
          revert hside; cases o.isBuy <;> simp
        simp only [addCore, if_neg h0, if_neg hstop', hside',
          Bool.false_eq_true, if_false]
        set m := matchLevelsD false o.allOrNone o.price o.openQty st.bids
          st.bidDepth with hm
        have hB' : ∀ L ∈ m.levels, ∀ x ∈ L.orders,
            x.allOrNone = true → x.openQty = x.initialQty := by
          rw [hm]
          exact matchLevelsD_aon_intact false o.allOrNone o.price st.bids
            o.openQty st.bidDepth hB
        split
        · exact ⟨hB', hA, hS⟩
        · rename_i hcond
          push_neg at hcond
          refine ⟨hB', ?_, hS⟩
          intro L hL x hx haon
          rcases insertOrder_orders_mem askAhead (restOrder o m.opn) st.asks
              L hL x hx with rfl | ⟨C, hC, hxC⟩
          · show m.opn = o.initialQty
            have haon' : o.allOrNone = true := haon
            have hinc : m.opn = 0 ∨ m.opn = o.openQty := by
              rw [hm, haon']
              exact matchLevelsD_aon_incoming false o.price st.bids
                o.openQty st.bidDepth
            rcases hinc with h' | h'
            · exact absurd h' hcond.1
            · rw [h', ho]
          · exact hA C hC x hxC haon
    · have hstop' : o.stopPrice ≠ 0 := hstop
      simp only [addCore, if_neg h0, if_pos hstop']
      refine ⟨hB, hA, ?_⟩
      intro x hx
      rcases List.mem_append.mp hx with h' | h'
      · exact hS x h'
      · simp only [List.mem_singleton] at h'
        subst h'; exact ho

theorem runQueue_aon (f : Nat) : ∀ (q : List Order) (st : Engine),
    AONInv st → (∀ x ∈ q, x.openQty = x.initialQty) →
    AONInv (runQueue f q st).1 := by
  induction f with
  | zero => intro q st h _; exact h
  | succ f ih =>
    intro q st h hq
    cases q with
    | nil => exact h
    | cons o rest =>
      simp only [runQueue]
      have ho : (clearStop o).openQty = (clearStop o).initialQty :=
        hq o (by simp)
      have hc := addCore_aon (clearStop o) st h ho
      obtain ⟨hB, hA, hS⟩ := hc
      cases hl : (addCore (clearStop o) st).2.2.getLast? with
      | none => exact ih rest _ ⟨hB, hA, hS⟩ (fun x hx => hq x (by simp [hx]))
      | some t =>
        apply ih
        · refine ⟨hB, hA, ?_⟩
          intro x hx
          simp only [List.partition_eq_filter_filter] at hx
          exact hS x (List.filter_subset' _ hx)
        · intro x hx
          rcases List.mem_append.mp hx with h' | h'
          · exact hq x (by simp [h'])
          · simp only [List.partition_eq_filter_filter] at h'
            exact hS x (List.filter_subset' _ h')

theorem priceUpdate_aon (p : Nat) (st : Engine) (h : AONInv st) :
    AONInv (priceUpdate p st).1 := by
  obtain ⟨hB, hA, hS⟩ := h
  unfold priceUpdate
  apply runQueue_aon
  · refine ⟨hB, hA, ?_⟩
    intro x hx
    simp only [List.partition_eq_filter_filter] at hx
    exact hS x (List.filter_subset' _ hx)
  · intro x hx
    simp only [List.partition_eq_filter_filter] at hx
    exact hS x (List.filter_subset' _ hx)

theorem addOrder_aon (o : Order) (st : Engine) (h : AONInv st)
    (ho : o.openQty = o.initialQty) : AONInv (addOrder o st).2.1 := by
  by_cases h0 : o.openQty = 0
  · simpa [addOrder, h0] using h
  · simp only [addOrder, if_neg h0]
    obtain ⟨hB, hA, hS⟩ := h
    have h2 := addCore_aon { o with id := st.nextId }
      { st with nextId := st.nextId + 1 } ⟨hB, hA, hS⟩ ho
    cases hl : (addCore { o with id := st.nextId }
        { st with nextId := st.nextId + 1 }).2.2.getLast? with
    | none => exact h2
    | some t => exact priceUpdate_aon _ _ h2

theorem runAdds_aon (is : List OrderInput) : AONInv (runAdds is) := by
  unfold runAdds
  suffices h : ∀ st, AONInv st →
      AONInv (is.foldl (fun st i => (addOrder (inputOrder i) st).2.1) st) from
    h emptyEngine ⟨by simp [emptyEngine], by simp [emptyEngine],
      by simp [emptyEngine]⟩
  induction is with
  | nil => intro st h; exact h
  | cons i rest ih =>
    intro st h
    exact ih _ (addOrder_aon _ _ h rfl)

/-- No order anywhere in the engine carries the all-or-none flag. -/
def NoAONInv (st : Engine) : Prop :=
  (∀ L ∈ st.bids, ∀ o ∈ L.orders, o.allOrNone = false) ∧
  (∀ L ∈ st.asks, ∀ o ∈ L.orders, o.allOrNone = false) ∧
  (∀ o ∈ st.stops, o.allOrNone = false)

/-- FIFO integrity: in every level, every order behind the head is
untouched since it rested. -/
def FIFOInv (st : Engine) : Prop :=
  (∀ L ∈ st.bids, ∀ x ∈ L.orders.tail, x.openQty = x.restedQty) ∧
  (∀ L ∈ st.asks, ∀ x ∈ L.orders.tail, x.openQty = x.restedQty)

theorem addCore_fifo (o : Order) (st : Engine) (hI : Inv st)
    (hN : NoAONInv st) (hF : FIFOInv st) (ho : o.allOrNone = false) :
    NoAONInv (addCore o st).2.1 ∧ FIFOInv (addCore o st).2.1 := by
  obtain ⟨hNB, hNA, hNS⟩ := hN
  obtain ⟨hFB, hFA⟩ := hF
  obtain ⟨_, _, hbok, haok, _, _⟩ := hI
  by_cases h0 : o.openQty = 0
  · simp only [addCore, if_pos h0]
    exact ⟨⟨hNB, hNA, hNS⟩, hFB, hFA⟩
  · by_cases hstop : o.stopPrice = 0
    · have hstop' : ¬o.stopPrice ≠ 0 := by simpa using hstop
      by_cases hside : o.isBuy = true
      · simp only [addCore, if_neg h0, if_neg hstop', if_pos hside]
        set m := matchLevelsD true o.allOrNone o.price o.openQty st.asks
          st.askDepth with hm
        have hNA' : ∀ L ∈ m.levels, ∀ x ∈ L.orders, x.allOrNone = false := by
          rw [hm]
          exact matchLevelsD_orders_pres true o.allOrNone o.price
            (fun x => x.allOrNone = false) (fun r t hr _ => hr) st.asks
            o.openQty st.askDepth hNA
        have hFA' : ∀ L ∈ m.levels, ∀ x ∈ L.orders.tail,
            x.openQty = x.restedQty := by
          rw [hm, ho]
          exact matchLevelsD_tail_untouched true o.price st.asks
            o.openQty st.askDepth hNA hFA
        split
        · exact ⟨⟨hNB, hNA', hNS⟩, hFB, hFA'⟩
        · constructor
          · refine ⟨?_, hNA', hNS⟩
            intro L hL x hx
            rcases insertOrder_orders_mem bidAhead (restOrder o m.opn) st.bids
                L hL x hx with rfl | ⟨C, hC, hxC⟩
            · exact ho
            · exact hNB C hC x hxC
          · refine ⟨?_, hFA'⟩
            exact insertOrder_tail_untouched bidAhead (restOrder o m.opn)
              st.bids (fun L hL => (hbok L hL).1) rfl hFB
      · have hside' : o.isBuy = false := by
          revert hside; cases o.isBuy <;> simp
        simp only [addCore, if_neg h0, if_neg hstop', hside',
          Bool.false_eq_true, if_false]
        set m := matchLevelsD false o.allOrNone o.price o.openQty st.bids
          st.bidDepth with hm
        have hNB' : ∀ L ∈ m.levels, ∀ x ∈ L.orders, x.allOrNone = false := by
          rw [hm]
          exact matchLevelsD_orders_pres false o.allOrNone o.price
            (fun x => x.allOrNone = false) (fun r t hr _ => hr) st.bids
            o.openQty st.bidDepth hNB
        have hFB' : ∀ L ∈ m.levels, ∀ x ∈ L.orders.tail,
            x.openQty = x.restedQty := by
          rw [hm, ho]
          exact matchLevelsD_tail_untouched false o.price st.bids
            o.openQty st.bidDepth hNB hFB
        split
        · exact ⟨⟨hNB', hNA, hNS⟩, hFB', hFA⟩
        · constructor
          · refine ⟨hNB', ?_, hNS⟩
            intro L hL x hx
            rcases insertOrder_orders_mem askAhead (restOrder o m.opn) st.asks
                L hL x hx with rfl | ⟨C, hC, hxC⟩
            · exact ho
            · exact hNA C hC x hxC
          · refine ⟨hFB', ?_⟩
            exact insertOrder_tail_untouched askAhead (restOrder o m.opn)
              st.asks (fun L hL => (haok L hL).1) rfl hFA
    · have hstop' : o.stopPrice ≠ 0 := hstop
      simp only [addCore, if_neg h0, if_pos hstop']
      refine ⟨⟨hNB, hNA, ?_⟩, hFB, hFA⟩
      intro x hx
      rcases List.mem_append.mp hx with h' | h'
      · exact hNS x h'
      · simp only [List.mem_singleton] at h'
        subst h'; exact ho

theorem runQueue_fifo (f : Nat) : ∀ (q : List Order) (st : Engine),
    Inv st → NoAONInv st → FIFOInv st → (∀ x ∈ q, x.allOrNone = false) →
    NoAONInv (runQueue f q st).1 ∧ FIFOInv (runQueue f q st).1 := by
  induction f with
  | zero => intro q st _ hN hF _; exact ⟨hN, hF⟩
  | succ f ih =>
    intro q st hI hN hF hq
    cases q with
    | nil => exact ⟨hN, hF⟩
    | cons o rest =>
      simp only [runQueue]
      have ho : (clearStop o).allOrNone = false := hq o (by simp)
      have hI' := addCore_inv (clearStop o) st hI
      obtain ⟨⟨hNB, hNA, hNS⟩, hF'⟩ := addCore_fifo (clearStop o) st hI hN hF ho
      cases hl : (addCore (clearStop o) st).2.2.getLast? with
      | none =>
        exact ih rest _ hI' ⟨hNB, hNA, hNS⟩ hF'
          (fun x hx => hq x (by simp [hx]))
      | some t =>
        apply ih
        · exact Inv_fields _ _ _ _ hI'
        · refine ⟨hNB, hNA, ?_⟩
          intro x hx
          simp only [List.partition_eq_filter_filter] at hx
          exact hNS x (List.filter_subset' _ hx)
        · exact hF'
        · intro x hx
          rcases List.mem_append.mp hx with h' | h'
          · exact hq x (by simp [h'])
          · simp only [List.partition_eq_filter_filter] at h'
            exact hNS x (List.filter_subset' _ h')

theorem addOrder_fifo (o : Order) (st : Engine) (hI : Inv st)
    (hN : NoAONInv st) (hF : FIFOInv st) (ho : o.allOrNone = false) :
    NoAONInv (addOrder o st).2.1 ∧ FIFOInv (addOrder o st).2.1 := by
  by_cases h0 : o.openQty = 0
  · simp only [addOrder, if_pos h0]
    exact ⟨hN, hF⟩
  · simp only [addOrder, if_neg h0]
    obtain ⟨hNB, hNA, hNS⟩ := hN
    have hI0 : Inv { st with nextId := st.nextId + 1 } := Inv_fields _ _ _ _ hI
    have h2 := addCore_fifo { o with id := st.nextId }
      { st with nextId := st.nextId + 1 } hI0 ⟨hNB, hNA, hNS⟩ hF ho
    have hI2 := addCore_inv { o with id := st.nextId }
      { st with nextId := st.nextId + 1 } hI0
    cases hl : (addCore { o with id := st.nextId }
        { st with nextId := st.nextId + 1 }).2.2.getLast? with
    | none => exact h2
    | some t =>
      obtain ⟨⟨hNB', hNA', hNS'⟩, hF'⟩ := h2
      unfold priceUpdate
      apply runQueue_fifo
      · exact Inv_fields _ _ _ _ hI2
      · refine ⟨hNB', hNA', ?_⟩
        intro x hx
        simp only [List.partition_eq_filter_filter] at hx
        exact hNS' x (List.filter_subset' _ hx)
      · exact hF'
      · intro x hx
        simp only [List.partition_eq_filter_filter] at hx
        exact hNS' x (List.filter_subset' _ hx)

/-- Every state reachable by adds without the all-or-none flag keeps FIFO
integrity: no order behind a level head has received any fill since it
rested. -/
theorem runAdds_fifo (is : List OrderInput)
    (h : ∀ i ∈ is, i.allOrNone = false) :
    FIFOInv (runAdds is) := by
  unfold runAdds
  suffices hgen : ∀ st, Inv st → NoAONInv st → FIFOInv st →
      (∀ i ∈ is, i.allOrNone = false) →
      NoAONInv (is.foldl (fun st i => (addOrder (inputOrder i) st).2.1) st) ∧
      FIFOInv (is.foldl (fun st i => (addOrder (inputOrder i) st).2.1) st) by
    exact (hgen emptyEngine Inv_empty
      ⟨by simp [emptyEngine], by simp [emptyEngine], by simp [emptyEngine]⟩
      ⟨by simp [emptyEngine], by simp [emptyEngine]⟩ h).2
  clear h
  induction is with
  | nil => intro st _ hN hF _; exact ⟨hN, hF⟩
  | cons i rest ih =>
    intro st hI hN hF h
    obtain ⟨hN', hF'⟩ := addOrder_fifo (inputOrder i) st hI hN hF
      (h i (by simp))
    exact ih _ (addOrder_inv _ _ hI) hN' hF' (fun j hj => h j (by simp [hj]))

/-- A market-price update that triggers no stop order only records the new
price: book, depth, stop set and counter are untouched. -/
theorem priceUpdate_no_trigger (p : Nat) (st : Engine)
    (h : ∀ o ∈ st.stops, triggered p o = false) :
    priceUpdate p st = ({ st with marketPrice := some p }, []) := by
  unfold priceUpdate
  have h1 : st.stops.partition (fun s => triggered p s) = ([], st.stops) := by
    rw [List.partition_eq_filter_filter]
    refine Prod.ext ?_ ?_
    · simp only []
      rw [List.filter_eq_nil_iff]
      intro a ha
      simp [h a ha]
    · simp only []
      rw [List.filter_eq_self]
      intro a ha
      simp [h a ha]
  rw [h1]
  rw [runQueue_nilQueue]

/-- Every stop order triggered by the newly set price leaves the Stop Order
Set during the update. -/
theorem priceUpdate_triggered_removed (p : Nat) (st : Engine) (o : Order)
    (ho : o ∈ st.stops) (ht : triggered p o = true) :
    o ∉ (priceUpdate p st).1.stops := by
  unfold priceUpdate
  intro hmem
  have h1 := runQueue_stops_subset _ _ _ hmem
  simp only [List.partition_eq_filter_filter] at h1
  have h2 := List.of_mem_filter h1
  simp only [Function.comp, ht] at h2
  simp at h2

/-- A filter and its complement split a list's length. -/
theorem filter_not_length {α : Type} (p : α → Bool) (l : List α) :
    (l.filter p).length + (l.filter (not ∘ p)).length = l.length := by
  induction l with
  | nil => rfl
  | cons a t ih =>
    by_cases hp : p a = true
    · have hcomp : (not ∘ p) a = false := by simp [Function.comp, hp]
      simp [List.filter_cons, hp, hcomp]
      omega
    · have hp' : p a = false := by revert hp; cases p a <;> simp
      have hcomp : (not ∘ p) a = true := by simp [Function.comp, hp']
      simp [List.filter_cons, hp', hcomp]
      omega

/-- With sufficient fuel, every order placed on the activation queue is
handed to the matching core: its cleared form appears in the work queue's
submission log. -/
theorem runQueue_submits (f : Nat) : ∀ (q : List Order) (st : Engine),
    q.length + st.stops.length ≤ f →
    ∀ o ∈ q, clearStop o ∈ (runQueue f q st).2 := by
  induction f with
  | zero =>
    intro q st h o ho
    cases q with
    | nil => simp at ho
    | cons a t => simp at h
  | succ f ih =>
    intro q st h o ho
    cases q with
    | nil => simp at ho
    | cons o' rest =>
      simp only [runQueue]
      cases hl : (addCore (clearStop o') st).2.2.getLast? with
      | none =>
        rcases List.mem_cons.mp ho with rfl | ho'
        · exact List.mem_cons_self _ _
        · apply List.mem_cons_of_mem
          apply ih rest _ ?_ o ho'
          rw [addCore_stops_clear (clearStop o') st rfl]
          simp only [List.length_cons] at h
          omega
      | some t =>
        rcases List.mem_cons.mp ho with rfl | ho'
        · exact List.mem_cons_self _ _
        · apply List.mem_cons_of_mem
          apply ih _ _ ?_ o (List.mem_append_left _ ho')
          show (rest ++ _).length + (List.partition _ _).2.length ≤ f
          simp only [List.partition_eq_filter_filter, List.length_append]
          have hsplit := filter_not_length (fun s => triggered t.price s)
            (addCore (clearStop o') st).2.1.stops
          have hlen : (addCore (clearStop o') st).2.1.stops.length =
              st.stops.length := by
            rw [addCore_stops_clear (clearStop o') st rfl]
          simp only [List.length_cons] at h
          omega

/-- Every stop order triggered by the newly set price is re-submitted to
the matching core: its cleared form is in the update's submission log. -/
theorem priceUpdate_submits (p : Nat) (st : Engine) (o : Order)
    (ho : o ∈ st.stops) (ht : triggered p o = true) :
    clearStop o ∈ (priceUpdate p st).2 := by
  simp only [priceUpdate]
  apply runQueue_submits _ _ _ ?_ o ?_
  · exact Nat.le_refl _
  · simp only [List.partition_eq_filter_filter]
    exact List.mem_filter.mpr ⟨ho, ht⟩

/-- Unfolding of a Market Price update: record price `p`, dequeue exactly
the `p`-triggered stops in submission order, and run the activation work
queue from that state. -/
theorem priceUpdate_eval (p : Nat) (st : Engine) :
    priceUpdate p st =
      runQueue ((st.stops.filter (fun s => triggered p s)).length +
          (st.stops.filter (fun s => !triggered p s)).length)
        (st.stops.filter (fun s => triggered p s))
        { st with marketPrice := some p,
                  stops := st.stops.filter (fun s => !triggered p s) } := by
  simp only [priceUpdate, List.partition_eq_filter_filter]
  rfl

/-- Looking a level's price up in the mirrored depth list yields its
aggregate open quantity, provided level prices are distinct. -/
theorem depthLookup_map (ls : List Level)
    (hd : ls.Pairwise (fun a b => a.price ≠ b.price)) :
    ∀ L ∈ ls, depthLookup (ls.map levelEntry) L.price =
      some (sumOpen L.orders) := by
  induction ls with
  | nil => intro L hL; simp at hL
  | cons X rest ih =>
    rw [List.pairwise_cons] at hd
    intro L hL
    rcases List.mem_cons.mp hL with rfl | h
    · simp [depthLookup, List.find?, levelEntry]
    · have hne : X.price ≠ L.price := hd.1 L h
      simp only [depthLookup, List.map_cons, List.find?]
      rw [show ((levelEntry X).price == L.price) = false from by
        simp [levelEntry, hne]]
      exact ih hd.2 L h

/-- The filtered depth snapshot of one side returns exactly the live top-5
levels when the depth list mirrors the levels and no price collides with
the wrapper's sentinel. -/
theorem depth_side_filter (ls : List Level) (hok : ∀ L ∈ ls, lvlOK L)
    (hs : ∀ L ∈ ls, L.price < SENTINEL_PRICE) :
    ((depthSlots (ls.map levelEntry)).filter
        (fun e => decide (0 < e.price) && !(e.price == SENTINEL_PRICE))).map
      (fun e => (e.price, e.aggQty)) =
    (ls.take 5).map (fun L => (L.price, sumOpen L.orders)) := by
  unfold depthSlots
  rw [List.filter_append]
  have hrep : (List.replicate (5 - ((ls.map levelEntry).take 5).length)
      (⟨0, 0⟩ : DepthEntry)).filter
      (fun e => decide (0 < e.price) && !(e.price == SENTINEL_PRICE)) = [] := by
    rw [List.filter_eq_nil_iff]
    intro a ha
    rw [List.eq_of_mem_replicate ha]
    simp [SENTINEL_PRICE]
  rw [hrep, List.append_nil, ← List.map_take]
  have hall : ∀ e ∈ (ls.take 5).map levelEntry,
      (decide (0 < e.price) && !(e.price == SENTINEL_PRICE)) = true := by
    intro e he
    obtain ⟨L, hL, rfl⟩ := List.mem_map.mp he
    have hL' : L ∈ ls := List.mem_of_mem_take hL
    have h1 : 0 < L.price := (hok L hL').2.1
    have h2 : L.price < SENTINEL_PRICE := hs L hL'
    simp [levelEntry, h1, Nat.ne_of_lt h2]
  rw [List.filter_eq_self.mpr hall, List.map_map]
  rfl

/-- Claim C1 — For every order submitted via add, the call returns true iff
at least one trade was executed for that order during the call; an order
that rests, is routed to the stop set, or is discarded without trading
returns false. -/
theorem claim_add_returns_true_iff_traded (st : Engine) (o : Order)
    (h : Inv st) :
    ((addOrder o st).1 = true ↔ (addOrder o st).2.2 ≠ []) := by
  by_cases h0 : o.openQty = 0
  · simp [addOrder, h0]
  · simp only [addOrder, if_neg h0]
    have hiff := addCore_matched_iff { o with id := st.nextId }
      { st with nextId := st.nextId + 1 } (Inv_fields _ _ _ _ h)
    cases hl : (addCore { o with id := st.nextId }
        { st with nextId := st.nextId + 1 }).2.2.getLast? with
    | none => exact hiff
    | some t => exact hiff

theorem claim_add_returns_true_iff_traded_witness :
    Inv emptyEngine ∧
    ((addOrder (inputOrder ⟨true, 100, 10, 0, false, false⟩)
        emptyEngine).1 = true ↔
      (addOrder (inputOrder ⟨true, 100, 10, 0, false, false⟩)
        emptyEngine).2.2 ≠ []) :=
  ⟨by decide, claim_add_returns_true_iff_traded emptyEngine
    (inputOrder ⟨true, 100, 10, 0, false, false⟩) (by decide)⟩

/-- Claim C2 — after any sequence of adds from the empty book, for each
price level present in the book, the Depth Aggregator's recorded aggregate
quantity for that price equals the sum of the open quantities of the
orders resting at that price. -/
theorem claim_depth_aggregate_matches_book (is : List OrderInput) :
    (∀ L ∈ (runAdds is).bids,
      depthLookup (runAdds is).bidDepth L.price = some (sumOpen L.orders)) ∧
    (∀ L ∈ (runAdds is).asks,
      depthLookup (runAdds is).askDepth L.price = some (sumOpen L.orders)) := by
  obtain ⟨hb, ha, hbok, haok, hbd, had⟩ := runAdds_inv is
  constructor
  · intro L hL
    rw [hbd]
    exact depthLookup_map (runAdds is).bids
      (hb.imp (fun h' => Nat.ne_of_gt h')) L hL
  · intro L hL
    rw [had]
    exact depthLookup_map (runAdds is).asks
      (ha.imp (fun h' => Nat.ne_of_lt h')) L hL

theorem claim_depth_aggregate_matches_book_witness :
    (⟨100, [⟨0, true, 100, 0, 10, 10, false, false, 10⟩]⟩ : Level) ∈
      (runAdds [⟨true, 100, 10, 0, false, false⟩]).bids ∧
    depthLookup (runAdds [⟨true, 100, 10, 0, false, false⟩]).bidDepth
      (⟨100, [⟨0, true, 100, 0, 10, 10, false, false, 10⟩]⟩ : Level).price =
      some (sumOpen (⟨100,
        [⟨0, true, 100, 0, 10, 10, false, false, 10⟩]⟩ : Level).orders) :=
  ⟨by decide,
   (claim_depth_aggregate_matches_book [⟨true, 100, 10, 0, false, false⟩]).1
     ⟨100, [⟨0, true, 100, 0, 10, 10, false, false, 10⟩]⟩ (by decide)⟩

/-- Claim C3 counterexample — price-time priority as stated fails with
all-or-none orders: after resting buy A (id 0, qty 3) then buy B (id 1,
qty 10) at price 100, an incoming all-or-none sell of 10 at 100 skips the
earlier order A and fills the later order B completely, so the
later-submitted order receives fill quantity while the earlier one has
received none (its open quantity still equals its initial quantity). -/
theorem claim_price_time_priority_counterexample :
    (addOrder (inputOrder ⟨false, 100, 10, 0, true, false⟩)
        (runAdds [⟨true, 100, 3, 0, false, false⟩,
                  ⟨true, 100, 10, 0, false, false⟩])).2.2 =
      [⟨1, 100, 10⟩] ∧
    (addOrder (inputOrder ⟨false, 100, 10, 0, true, false⟩)
        (runAdds [⟨true, 100, 3, 0, false, false⟩,
                  ⟨true, 100, 10, 0, false, false⟩])).2.1.bids =
      [⟨100, [⟨0, true, 100, 0, 3, 3, false, false, 3⟩]⟩] := by
  decide

/-- Claim C3 amended — price-time priority holds in queue-arrival order
when no all-or-none order is involved: after any sequence of adds none of
which carries the all-or-none flag, every order behind the head of its
level's FIFO queue has received no fill since it rested (so the order
ahead always receives fill before the one behind receives any; for
directly submitted non-stop orders queue order is submission order). -/
theorem claim_price_time_priority_amended (is : List OrderInput)
    (h : ∀ i ∈ is, i.allOrNone = false) :
    (∀ L ∈ (runAdds is).bids, ∀ x ∈ L.orders.tail,
      x.openQty = x.restedQty) ∧
    (∀ L ∈ (runAdds is).asks, ∀ x ∈ L.orders.tail,
      x.openQty = x.restedQty) :=
  runAdds_fifo is h

theorem claim_price_time_priority_amended_witness :
    (∀ i ∈ [(⟨true, 100, 3, 0, false, false⟩ : OrderInput),
            ⟨true, 100, 10, 0, false, false⟩], i.allOrNone = false) ∧
    (⟨1, true, 100, 0, 10, 10, false, false, 10⟩ : Order).openQty =
      (⟨1, true, 100, 0, 10, 10, false, false, 10⟩ : Order).restedQty :=
  ⟨by decide,
   (claim_price_time_priority_amended
     [⟨true, 100, 3, 0, false, false⟩, ⟨true, 100, 10, 0, false, false⟩]
     (by decide)).1
     ⟨100, [⟨0, true, 100, 0, 3, 3, false, false, 3⟩,
            ⟨1, true, 100, 0, 10, 10, false, false, 10⟩]⟩ (by decide)
     ⟨1, true, 100, 0, 10, 10, false, false, 10⟩ (by decide)⟩

/-- Claim C4 — in every state reachable by adds from the empty book, no
all-or-none order (resting in the book or held in the stop set) is ever
observed with open quantity strictly between zero and its initial
quantity. -/
theorem claim_aon_never_partially_filled (is : List OrderInput) :
    (∀ L ∈ (runAdds is).bids, ∀ o ∈ L.orders, o.allOrNone = true →
      ¬(0 < o.openQty ∧ o.openQty < o.initialQty)) ∧
    (∀ L ∈ (runAdds is).asks, ∀ o ∈ L.orders, o.allOrNone = true →
      ¬(0 < o.openQty ∧ o.openQty < o.initialQty)) ∧
    (∀ o ∈ (runAdds is).stops,
      ¬(0 < o.openQty ∧ o.openQty < o.initialQty)) := by
  obtain ⟨hB, hA, hS⟩ := runAdds_aon is
  refine ⟨?_, ?_, ?_⟩
  · intro L hL o ho haon hlt
    have := hB L hL o ho haon
    omega
  · intro L hL o ho haon hlt
    have := hA L hL o ho haon
    omega
  · intro o ho hlt
    have := hS o ho
    omega

theorem claim_aon_never_partially_filled_witness :
    (⟨0, true, 100, 0, 10, 10, true, false, 10⟩ : Order).allOrNone = true ∧
    ¬(0 < (⟨0, true, 100, 0, 10, 10, true, false, 10⟩ : Order).openQty ∧
      (⟨0, true, 100, 0, 10, 10, true, false, 10⟩ : Order).openQty <
      (⟨0, true, 100, 0, 10, 10, true, false, 10⟩ : Order).initialQty) :=
  ⟨by decide,
   (claim_aon_never_partially_filled [⟨true, 100, 10, 0, true, false⟩]).1
     ⟨100, [⟨0, true, 100, 0, 10, 10, true, false, 10⟩]⟩ (by decide)
     ⟨0, true, 100, 0, 10, 10, true, false, 10⟩ (by decide) (by decide)⟩

/-- Claim C5 — the book snapshot lists bids best (highest) price first and
asks best (lowest) price first, with exactly one entry per distinct price
level (not one per resting order): entry prices are strictly ordered and
the entry count equals the level count. -/
theorem claim_book_snapshot_one_entry_per_level (st : Engine) (h : Inv st) :
    ((getOrderBook st).1.map Prod.fst).Pairwise (fun a b => b < a) ∧
    ((getOrderBook st).2.map Prod.fst).Pairwise (fun a b => a < b) ∧
    (getOrderBook st).1.length = st.bids.length ∧
    (getOrderBook st).2.length = st.asks.length := by
  obtain ⟨hb, ha, _, _, _, _⟩ := h
  refine ⟨?_, ?_, by simp [getOrderBook], by simp [getOrderBook]⟩
  · simp only [getOrderBook, List.map_map]
    exact List.pairwise_map.mpr hb
  · simp only [getOrderBook, List.map_map]
    exact List.pairwise_map.mpr ha

theorem claim_book_snapshot_one_entry_per_level_witness :
    Inv (runAdds [⟨true, 100, 5, 0, false, false⟩,
                  ⟨true, 100, 7, 0, false, false⟩,
                  ⟨false, 105, 4, 0, false, false⟩]) ∧
    (((getOrderBook (runAdds [⟨true, 100, 5, 0, false, false⟩,
        ⟨true, 100, 7, 0, false, false⟩,
        ⟨false, 105, 4, 0, false, false⟩])).1.map Prod.fst).Pairwise
        (fun a b => b < a) ∧
      ((getOrderBook (runAdds [⟨true, 100, 5, 0, false, false⟩,
        ⟨true, 100, 7, 0, false, false⟩,
        ⟨false, 105, 4, 0, false, false⟩])).2.map Prod.fst).Pairwise
        (fun a b => a < b) ∧
      (getOrderBook (runAdds [⟨true, 100, 5, 0, false, false⟩,
        ⟨true, 100, 7, 0, false, false⟩,
        ⟨false, 105, 4, 0, false, false⟩])).1.length =
        (runAdds [⟨true, 100, 5, 0, false, false⟩,
        ⟨true, 100, 7, 0, false, false⟩,
        ⟨false, 105, 4, 0, false, false⟩]).bids.length ∧
      (getOrderBook (runAdds [⟨true, 100, 5, 0, false, false⟩,
        ⟨true, 100, 7, 0, false, false⟩,
        ⟨false, 105, 4, 0, false, false⟩])).2.length =
        (runAdds [⟨true, 100, 5, 0, false, false⟩,
        ⟨true, 100, 7, 0, false, false⟩,
        ⟨false, 105, 4, 0, false, false⟩]).asks.length) :=
  ⟨by decide,
   claim_book_snapshot_one_entry_per_level
     (runAdds [⟨true, 100, 5, 0, false, false⟩,
               ⟨true, 100, 7, 0, false, false⟩,
               ⟨false, 105, 4, 0, false, false⟩]) (by decide)⟩

/-- Claim C6 counterexample — the wrapper's getDepth does not return N = 5
slots with sentinel entries for missing levels: with a single live bid
level it returns a one-element array (the sentinel slots are filtered
out), not five slots. -/
theorem claim_depth_sentinel_slots_counterexample :
    (getDepth (runAdds [⟨true, 100, 10, 0, false, false⟩])).1 = [(100, 10)] ∧
    ¬((getDepth
      (runAdds [⟨true, 100, 10, 0, false, false⟩])).1.length = 5) := by
  decide

/-- Claim C6 amended — getDepth filters out the empty and sentinel slots
(price 0 or 2^64 − 1) of the 5-slot depth arrays and returns only the live
levels: with fewer than 5 live levels on a side the returned array has
exactly as many entries as live levels, each a real `{price, quantity}`
pair, and slots beyond the live count are omitted rather than returned. -/
theorem claim_depth_returns_live_levels_only (st : Engine) (h : Inv st)
    (hbs : ∀ L ∈ st.bids, L.price < SENTINEL_PRICE)
    (has : ∀ L ∈ st.asks, L.price < SENTINEL_PRICE) :
    (getDepth st).1 =
      (st.bids.take 5).map (fun L => (L.price, sumOpen L.orders)) ∧
    (getDepth st).2 =
      (st.asks.take 5).map (fun L => (L.price, sumOpen L.orders)) := by
  obtain ⟨_, _, hbok, haok, hbd, had⟩ := h
  constructor
  · show ((depthSlots st.bidDepth).filter _).map _ = _
    rw [hbd]
    exact depth_side_filter st.bids hbok hbs
  · show ((depthSlots st.askDepth).filter _).map _ = _
    rw [had]
    exact depth_side_filter st.asks haok has

theorem claim_depth_returns_live_levels_only_witness :
    (Inv (runAdds [⟨true, 100, 10, 0, false, false⟩]) ∧
     (∀ L ∈ (runAdds [⟨true, 100, 10, 0, false, false⟩]).bids,
       L.price < SENTINEL_PRICE) ∧
     (∀ L ∈ (runAdds [⟨true, 100, 10, 0, false, false⟩]).asks,
       L.price < SENTINEL_PRICE)) ∧
    (getDepth (runAdds [⟨true, 100, 10, 0, false, false⟩])).1 =
      ((runAdds [⟨true, 100, 10, 0, false, false⟩]).bids.take 5).map
        (fun L => (L.price, sumOpen L.orders)) :=
  ⟨⟨by decide, by decide, by decide⟩,
   (claim_depth_returns_live_levels_only
     (runAdds [⟨true, 100, 10, 0, false, false⟩])
     (by decide) (by decide) (by decide)).1⟩

/-- Claim C7 counterexample — cancelOrder and replaceOrder never return a
success boolean: with sufficient arguments both throw the
not-fully-implemented error for every order id, known or unknown. -/
theorem claim_cancel_replace_boolean_counterexample :
    (cancelOrder 1 emptyEngine).1 = JsOutcome.notImplemented ∧
    (cancelOrder 1 emptyEngine).1 ≠ JsOutcome.ok true ∧
    (cancelOrder 1 emptyEngine).1 ≠ JsOutcome.ok false ∧
    (replaceOrder 3 emptyEngine).1 = JsOutcome.notImplemented ∧
    (replaceOrder 3 emptyEngine).1 ≠ JsOutcome.ok true ∧
    (replaceOrder 3 emptyEngine).1 ≠ JsOutcome.ok false := by
  decide

/-- Claim C7 amended — cancelOrder and replaceOrder never return a success
boolean: given enough arguments they unconditionally throw the
not-fully-implemented error (and a wrong-argument-count error otherwise),
and in every case leave the engine state unchanged. -/
theorem claim_cancel_replace_not_implemented (argc : Nat) (st : Engine) :
    (1 ≤ argc → cancelOrder argc st = (JsOutcome.notImplemented, st)) ∧
    (3 ≤ argc → replaceOrder argc st = (JsOutcome.notImplemented, st)) ∧
    (cancelOrder argc st).2 = st ∧ (replaceOrder argc st).2 = st := by
  refine ⟨?_, ?_, ?_, ?_⟩
  · intro h
    rw [cancelOrder, if_neg (by omega)]
  · intro h
    rw [replaceOrder, if_neg (by omega)]
  · rw [cancelOrder]
    split <;> rfl
  · rw [replaceOrder]
    split <;> rfl

theorem claim_cancel_replace_not_implemented_witness :
    (1 ≤ 3 ∧ cancelOrder 3 emptyEngine =
      (JsOutcome.notImplemented, emptyEngine)) ∧
    (3 ≤ 3 ∧ replaceOrder 3 emptyEngine =
      (JsOutcome.notImplemented, emptyEngine)) :=
  ⟨⟨by decide, (claim_cancel_replace_not_implemented 3 emptyEngine).1
     (by decide)⟩,
   ⟨by decide, (claim_cancel_replace_not_implemented 3 emptyEngine).2.1
     (by decide)⟩⟩

/-- Claim C8 — an add call with zero quantity is rejected before any state
change: the call reports no match, produces no trade, and the entire
engine state (book, depth, stop set, market price, counter) is returned
unchanged. -/
theorem claim_zero_qty_rejected_no_state_change (st : Engine) (o : Order)
    (h : o.openQty = 0) : addOrder o st = (false, st, []) := by
  simp [addOrder, h]

theorem claim_zero_qty_rejected_no_state_change_witness :
    (inputOrder ⟨true, 100, 0, 0, false, false⟩).openQty = 0 ∧
    addOrder (inputOrder ⟨true, 100, 0, 0, false, false⟩)
      (runAdds [⟨true, 100, 10, 0, false, false⟩]) =
      (false, runAdds [⟨true, 100, 10, 0, false, false⟩], []) :=
  ⟨by decide,
   claim_zero_qty_rejected_no_state_change
     (runAdds [⟨true, 100, 10, 0, false, false⟩])
     (inputOrder ⟨true, 100, 0, 0, false, false⟩) (by decide)⟩

/-- Claim C9 — setMarketPrice p sets the Market Price to p without
executing any trade, and then evaluates the Stop Order Set.  Proved as
three conjuncts: (i) when no stop order's trigger is satisfied by p the
entire state change is exactly recording the price — no trade, no other
effect; (ii) in general the update is precisely the stop-activation work
queue run started from the state that records Market Price p, with exactly
the p-triggered stop orders, in submission order, removed from the set and
placed on the queue — so the price is set to p, with no trade, before any
stop is evaluated; (iii) every pending stop order whose trigger condition
is satisfied by p (buy stop: p ≥ stop price; sell stop: p ≤ stop price) is
removed from the set and, with its stop price cleared, appears in the
update's submission log — the orders the work queue hands to the matching
core via the core add operation. -/
theorem claim_set_market_price_triggers_stops (st : Engine) (p : Nat) :
    ((∀ o ∈ st.stops, triggered p o = false) →
      setMarketPrice p st = { st with marketPrice := some p }) ∧
    priceUpdate p st =
      runQueue ((st.stops.filter (fun s => triggered p s)).length +
          (st.stops.filter (fun s => !triggered p s)).length)
        (st.stops.filter (fun s => triggered p s))
        { st with marketPrice := some p,
                  stops := st.stops.filter (fun s => !triggered p s) } ∧
    (∀ o ∈ st.stops, triggered p o = true →
      o ∉ (setMarketPrice p st).stops ∧
      clearStop o ∈ (priceUpdate p st).2) := by
  refine ⟨?_, priceUpdate_eval p st, ?_⟩
  · intro h
    show (priceUpdate p st).1 = _
    rw [priceUpdate_no_trigger p st h]
  · intro o ho ht
    exact ⟨priceUpdate_triggered_removed p st o ho ht,
           priceUpdate_submits p st o ho ht⟩

theorem claim_set_market_price_triggers_stops_witness :
    ((⟨0, true, 0, 96, 5, 5, false, false, 5⟩ : Order) ∈
      (addOrder (inputOrder ⟨true, 0, 5, 96, false, false⟩)
        emptyEngine).2.1.stops ∧
     triggered 100 (⟨0, true, 0, 96, 5, 5, false, false, 5⟩ : Order) =
       true) ∧
    ((⟨0, true, 0, 96, 5, 5, false, false, 5⟩ : Order) ∉
      (setMarketPrice 100
        (addOrder (inputOrder ⟨true, 0, 5, 96, false, false⟩)
          emptyEngine).2.1).stops ∧
     clearStop (⟨0, true, 0, 96, 5, 5, false, false, 5⟩ : Order) ∈
      (priceUpdate 100
        (addOrder (inputOrder ⟨true, 0, 5, 96, false, false⟩)
          emptyEngine).2.1).2) :=
  ⟨⟨by decide, by decide⟩,
   (claim_set_market_price_triggers_stops
     (addOrder (inputOrder ⟨true, 0, 5, 96, false, false⟩)
       emptyEngine).2.1 100).2.2
     ⟨0, true, 0, 96, 5, 5, false, false, 5⟩ (by decide) (by decide)⟩

/-- Claim C10 — an addOrder call with the immediateOrCancel argument
omitted behaves exactly as the same call with immediateOrCancel explicitly
false, and the constructed order has the immediate-or-cancel flag
cleared. -/
theorem claim_ioc_defaults_false (b : Bool) (p q sp : Nat) (aon : Bool)
    (st : Engine) :
    addOrderJs b p q sp aon none st =
      addOrderJs b p q sp aon (some false) st ∧
    (inputOrder ⟨b, p, q, sp, aon,
      (none : Option Bool).getD false⟩).immediateOrCancel = false :=
  ⟨rfl, rfl⟩

end Thalium
